import Mathlib

/-!
# Verification of the `MemoryGraph` knowledge-graph core

Shallow embedding of `src/v3/@claude-flow/memory/src/memory-graph.ts`.

JavaScript `Map`s are modelled as association lists (`AList`) preserving
insertion order (a `set` on an existing key updates in place, a `set` on a
fresh key appends at the end), and JavaScript `Set`s as duplicate-free lists
with the same insertion-order semantics.  All numeric scores and weights are
modelled as exact rationals (`ℚ`).
-/

namespace MemGraph

-- ===== Definitions =====

/-- Association list keyed by strings, modelling a JavaScript `Map`. -/
abbrev AList (α : Type) := List (String × α)

/-- Models `Map.get`: first binding for the key, if any. -/
def mapGet {α : Type} (m : AList α) (k : String) : Option α :=
  (m.find? (fun p => p.1 = k)).map (·.2)

/-- Models `Map.has`. -/
def mapHas {α : Type} (m : AList α) (k : String) : Bool :=
  m.any (fun p => p.1 = k)

/-- Models `Map.set`: updates the first binding in place, else appends. -/
def mapSet {α : Type} : AList α → String → α → AList α
  | [], k, v => [(k, v)]
  | p :: rest, k, v =>
    if p.1 = k then (k, v) :: rest else p :: mapSet rest k v

/-- Models `Map.delete`. -/
def mapDelete {α : Type} (m : AList α) (k : String) : AList α :=
  m.filter (fun p => p.1 ≠ k)

/-- Models `Map.keys()`, in insertion order. -/
def mapKeys {α : Type} (m : AList α) : List String :=
  m.map (·.1)

/-- Models `Set.add`: no-op when the element is already present, else appends. -/
def setAdd (s : List String) (x : String) : List String :=
  if x ∈ s then s else s ++ [x]

/-- Models `Set.delete`. -/
def setDelete (s : List String) (x : String) : List String :=
  s.filter (fun y => y ≠ x)

/-- Edge types (`EdgeType` in the source). -/
inductive EdgeType where
  | reference | similar | temporal | coAccessed | causal
deriving DecidableEq, Repr

/-- Optional metadata carried by a `MemoryEntry`; the source reads only the
`category` and `confidence` fields.  `none` models an absent field. -/
structure EntryMetadata where
  category : Option String
  confidence : Option ℚ
deriving DecidableEq, Repr

/-- The observable fields of a `MemoryEntry` (external input). -/
structure MemoryEntry where
  id : String
  metadata : Option EntryMetadata
  accessCount : Nat
  createdAt : Int
  references : List String
  embedding : Option (List ℚ)
deriving DecidableEq, Repr

/-- Models `GraphNode` in the source. -/
structure GraphNode where
  id : String
  category : String
  confidence : ℚ
  accessCount : Nat
  createdAt : Int
deriving DecidableEq, Repr

/-- Models `GraphEdge` in the source (the source id is the key of the owning list). -/
structure GraphEdge where
  targetId : String
  type : EdgeType
  weight : ℚ
deriving DecidableEq, Repr

/-- Models `Required<MemoryGraphConfig>` in the source. -/
structure MemoryGraphConfig where
  similarityThreshold : ℚ
  pageRankDamping : ℚ
  pageRankIterations : Nat
  pageRankConvergence : ℚ
  maxNodes : Nat
deriving DecidableEq, Repr

/-- Models `DEFAULT_CONFIG` in the source. -/
def defaultConfig : MemoryGraphConfig :=
  { similarityThreshold := 8/10
    pageRankDamping := 85/100
    pageRankIterations := 50
    pageRankConvergence := 1/1000000
    maxNodes := 5000 }

/-- The mutable state of a `MemoryGraph` instance. -/
structure MemoryGraph where
  nodes : AList GraphNode
  edges : AList (List GraphEdge)
  reverseEdges : AList (List String)
  pageRanks : AList ℚ
  communities : AList String
  config : MemoryGraphConfig
  dirty : Bool
deriving DecidableEq, Repr

/-- A freshly constructed graph (`new MemoryGraph(config)`). -/
def mkGraph (config : MemoryGraphConfig) : MemoryGraph :=
  { nodes := [], edges := [], reverseEdges := [], pageRanks := []
    communities := [], config := config, dirty := true }

/-- Outgoing edge list of a node (`this.edges.get(id) || []`). -/
def outList (g : MemoryGraph) (id : String) : List GraphEdge :=
  (mapGet g.edges id).getD []

/-- Reverse-index entry of a node (`this.reverseEdges.get(id)`, as a list). -/
def revList (g : MemoryGraph) (id : String) : List String :=
  (mapGet g.reverseEdges id).getD []

/-- JavaScript `x || d` on a possibly-absent string: `undefined`, `null` and
the empty string are falsy. -/
def jsOrString (v : Option String) (d : String) : String :=
  match v with
  | none => d
  | some s => if s = "" then d else s

/-- JavaScript `x || d` on a possibly-absent number: `undefined`, `null` and
`0` are falsy. -/
def jsOrNum (v : Option ℚ) (d : ℚ) : ℚ :=
  match v with
  | none => d
  | some c => if c = 0 then d else c

/-- The `GraphNode` record literal built inside `addNode`. -/
def mkGraphNode (entry : MemoryEntry) : GraphNode :=
  { id := entry.id
    category := jsOrString (entry.metadata.bind (·.category)) "general"
    confidence := jsOrNum (entry.metadata.bind (·.confidence)) (5/10)
    accessCount := entry.accessCount
    createdAt := entry.createdAt }

/-- Models `addNode` in the source: capacity-gated insert-or-replace. -/
def addNode (g : MemoryGraph) (entry : MemoryEntry) : MemoryGraph :=
  if g.nodes.length ≥ g.config.maxNodes ∧ ¬ mapHas g.nodes entry.id then g
  else
    { g with
      nodes := mapSet g.nodes entry.id (mkGraphNode entry)
      edges := if mapHas g.edges entry.id then g.edges
               else mapSet g.edges entry.id []
      reverseEdges := if mapHas g.reverseEdges entry.id then g.reverseEdges
                      else mapSet g.reverseEdges entry.id []
      dirty := true }

/-- In-place weight update of the first edge to `targetId`
(`existing.weight = Math.max(existing.weight, weight)`). -/
def updateEdgeWeight : List GraphEdge → String → ℚ → List GraphEdge
  | [], _, _ => []
  | e :: rest, t, w =>
    if e.targetId = t then { e with weight := max e.weight w } :: rest
    else e :: updateEdgeWeight rest t w

/-- The updated edge list computed inside `addEdge` from the current list of
`sourceId`: update the existing edge's weight to the maximum, or append a
fresh edge. -/
def newEdgeList (edgeList : List GraphEdge) (targetId : String) (ty : EdgeType)
    (weight : ℚ) : List GraphEdge :=
  if edgeList.any (fun e => e.targetId = targetId) then
    updateEdgeWeight edgeList targetId weight
  else
    edgeList ++ [{ targetId := targetId, type := ty, weight := weight }]

/-- The updated reverse index computed inside `addEdge`: ensure a slot for
`targetId` exists, then add `sourceId` to it. -/
def newRevIndex (rev : AList (List String)) (sourceId targetId : String) :
    AList (List String) :=
  let rev0 := if mapHas rev targetId then rev else mapSet rev targetId []
  mapSet rev0 targetId (setAdd ((mapGet rev0 targetId).getD []) sourceId)

/-- Models `addEdge` in the source. -/
def addEdge (g : MemoryGraph) (sourceId targetId : String) (ty : EdgeType)
    (weight : ℚ := 1) : MemoryGraph :=
  if ¬ (mapHas g.nodes sourceId ∧ mapHas g.nodes targetId) then g
  else
    { g with
      edges := mapSet g.edges sourceId
        (newEdgeList (outList g sourceId) targetId ty weight)
      reverseEdges := newRevIndex g.reverseEdges sourceId targetId
      dirty := true }

/-- Models `hasEdge` in the source. -/
def hasEdge (g : MemoryGraph) (sourceId targetId : String) : Bool :=
  match mapGet g.edges sourceId with
  | none => false
  | some edgeList => edgeList.any (fun e => e.targetId = targetId)

/-- The first loop of `removeNode`: for each outgoing edge, erase `id` from
the target's reverse-index set. -/
def removeRevEntries (rev : AList (List String)) (outgoing : List GraphEdge)
    (id : String) : AList (List String) :=
  outgoing.foldl (fun r e =>
    match mapGet r e.targetId with
    | some s => mapSet r e.targetId (setDelete s id)
    | none => r) rev

/-- The second loop of `removeNode`: for each incoming source, filter out its
edges targeting `id`. -/
def removeIncomingEdges (es : AList (List GraphEdge)) (incoming : List String)
    (id : String) : AList (List GraphEdge) :=
  incoming.foldl (fun es2 srcId =>
    match mapGet es2 srcId with
    | some srcEdges => mapSet es2 srcId (srcEdges.filter (fun e => e.targetId ≠ id))
    | none => es2) es

/-- Models `removeNode` in the source. -/
def removeNode (g : MemoryGraph) (id : String) : MemoryGraph :=
  if ¬ mapHas g.nodes id then g
  else
    { g with
      nodes := mapDelete g.nodes id
      edges := removeIncomingEdges (mapDelete g.edges id)
        ((mapGet (removeRevEntries g.reverseEdges (outList g id) id) id).getD []) id
      reverseEdges := mapDelete (removeRevEntries g.reverseEdges (outList g id) id) id
      pageRanks := mapDelete g.pageRanks id
      communities := mapDelete g.communities id
      dirty := true }

/-- A `(entry, score)` pair returned by the backing store's vector search. -/
structure SearchResult where
  entry : MemoryEntry
  score : ℚ
deriving DecidableEq, Repr

/-- The backing store (`IMemoryBackend`): an external collaborator with
`get` and `search`.  `search embedding k threshold` models
`backend.search(embedding, { k, threshold })`. -/
structure Backend where
  get : String → Option MemoryEntry
  search : List ℚ → Nat → ℚ → List SearchResult

/-- One step of the result loop in `addSimilarityEdges`: the accumulator is
`(added, graph)`. -/
def simEdgeStep (entryId : String) (threshold : ℚ)
    (acc : Nat × MemoryGraph) (r : SearchResult) : Nat × MemoryGraph :=
  if r.entry.id = entryId then acc
  else if threshold ≤ r.score then
    let hadEdge := hasEdge acc.2 entryId r.entry.id
    let g2 := addEdge acc.2 entryId r.entry.id EdgeType.similar r.score
    (if hadEdge then acc.1 else acc.1 + 1, g2)
  else acc

/-- Models `addSimilarityEdges` in the source; returns `(added, updated graph)`. -/
def addSimilarityEdges (g : MemoryGraph) (backend : Backend)
    (entryId : String) : Nat × MemoryGraph :=
  match backend.get entryId with
  | none => (0, g)
  | some entry =>
    match entry.embedding with
    | none => (0, g)
    | some emb =>
      let results := backend.search emb 20 g.config.similarityThreshold
      results.foldl (simEdgeStep entryId g.config.similarityThreshold) (0, g)

/-- Rank lookup with JavaScript's `|| 0` default. -/
def rankOf (ranks : AList ℚ) (id : String) : ℚ :=
  (mapGet ranks id).getD 0

/-- Models `this.edges.get(sourceId)?.length || 1`: the defensive out-degree. -/
def outDegreeOr1 (g : MemoryGraph) (id : String) : ℚ :=
  let n := (outList g id).length
  if n = 0 then 1 else (n : ℚ)

/-- The dangling-node list: nodes with no outgoing edges, in key order. -/
def danglingNodes (g : MemoryGraph) : List String :=
  (mapKeys g.nodes).filter (fun k => outList g k = [])

/-- Models `danglingSum` of one iteration. -/
def danglingSum (g : MemoryGraph) (ranks : AList ℚ) : ℚ :=
  (danglingNodes g).foldl (fun s k => s + rankOf ranks k) 0

/-- The inbound contribution `Σ_{v ∈ in[u]} rank[v] / (|out[v]| || 1)`. -/
def inSum (g : MemoryGraph) (ranks : AList ℚ) (u : String) : ℚ :=
  (revList g u).foldl (fun s v => s + rankOf ranks v / outDegreeOr1 g v) 0

/-- Models `newRank` of one node in one iteration. -/
def newRank (g : MemoryGraph) (d nq ds : ℚ) (ranks : AList ℚ) (u : String) : ℚ :=
  (1 - d) / nq + d * (inSum g ranks u + ds / nq)

/-- One PageRank power iteration: returns `(newRanks, maxDelta)`. -/
def prStep (g : MemoryGraph) (d nq : ℚ) (ranks : AList ℚ) : AList ℚ × ℚ :=
  let ds := danglingSum g ranks
  (mapKeys g.nodes).foldl (fun acc u =>
    let nr := newRank g d nq ds ranks u
    (mapSet acc.1 u nr, max acc.2 |nr - rankOf ranks u|)) ([], 0)

/-- The iteration loop (fuel = remaining iterations); returns the final rank
map and the iteration count. -/
def prIterate (g : MemoryGraph) (d nq conv : ℚ) :
    Nat → AList ℚ → Nat → AList ℚ × Nat
  | 0, ranks, iters => (ranks, iters)
  | remaining + 1, ranks, iters =>
    if (prStep g d nq ranks).2 < conv then ((prStep g d nq ranks).1, iters + 1)
    else prIterate g d nq conv remaining (prStep g d nq ranks).1 (iters + 1)

/-- The rank-initialisation loop: `pageRanks.set(nodeId, 1/N)` per node. -/
def prInit (g : MemoryGraph) (nq : ℚ) : AList ℚ :=
  (mapKeys g.nodes).foldl (fun m k => mapSet m k (1 / nq)) g.pageRanks

/-- Models `computePageRank` in the source; returns `(rank map copy, updated graph)`. -/
def computePageRank (g : MemoryGraph) : AList ℚ × MemoryGraph :=
  if g.nodes.length = 0 then ([], { g with dirty := false })
  else
    let nq : ℚ := (g.nodes.length : ℚ)
    let init := prInit g nq
    let result := prIterate g g.config.pageRankDamping nq
      g.config.pageRankConvergence g.config.pageRankIterations init 0
    (result.1, { g with pageRanks := result.1, dirty := false })

/-- Models `RankedResult` in the source. -/
structure RankedResult where
  entry : MemoryEntry
  score : ℚ
  pageRank : ℚ
  combinedScore : ℚ
  community : Option String
deriving DecidableEq, Repr

/-- The per-result record built inside `rankWithGraph` (`nq` is
`this.nodes.size || 1`). -/
def mkRanked (g : MemoryGraph) (alpha nq : ℚ) (r : SearchResult) : RankedResult :=
  let pr := rankOf g.pageRanks r.entry.id
  { entry := r.entry
    score := r.score
    pageRank := pr
    combinedScore := alpha * r.score + (1 - alpha) * (pr * nq)
    community := mapGet g.communities r.entry.id }

/-- The comparator of `rankWithGraph`'s sort: descending by combined score
(JavaScript's `sort` is stable, modelled by `List.mergeSort`). -/
def rankedLE (a b : RankedResult) : Bool :=
  decide (b.combinedScore ≤ a.combinedScore)

/-- Models `rankWithGraph` in the source; returns the ranked list and the updated
graph (PageRank is recomputed first when the graph is dirty). -/
def rankWithGraph (g : MemoryGraph) (searchResults : List SearchResult)
    (alpha : ℚ := 7/10) : List RankedResult × MemoryGraph :=
  let g1 := if g.dirty then (computePageRank g).2 else g
  let nq : ℚ := if g1.nodes.length = 0 then 1 else (g1.nodes.length : ℚ)
  ((searchResults.map (mkRanked g1 alpha nq)).mergeSort rankedLE, g1)

/-- Inner loop of `getNeighbors`: scan one node's outgoing edges, extending
`(visited, nextFrontier)`. -/
def neighborScan (id : String) (acc : List String × List String)
    (es : List GraphEdge) : List String × List String :=
  es.foldl (fun acc2 e =>
    if e.targetId ∉ acc2.1 ∧ e.targetId ≠ id then
      (acc2.1 ++ [e.targetId], acc2.2 ++ [e.targetId])
    else acc2) acc

/-- The depth loop of `getNeighbors` (recursion on the remaining depth;
stops early on an empty frontier). -/
def neighborLoop (g : MemoryGraph) (id : String) :
    Nat → List String → List String → List String
  | 0, visited, _ => visited
  | d + 1, visited, frontier =>
    if (frontier.foldl (fun acc nodeId => neighborScan id acc (outList g nodeId))
        (visited, [])).2 = [] then
      (frontier.foldl (fun acc nodeId => neighborScan id acc (outList g nodeId))
        (visited, [])).1
    else
      neighborLoop g id d
        (frontier.foldl (fun acc nodeId => neighborScan id acc (outList g nodeId))
          (visited, [])).1
        (frontier.foldl (fun acc nodeId => neighborScan id acc (outList g nodeId))
          (visited, [])).2

/-- Models `getNeighbors` in the source; the returned `Set` is modelled as a
duplicate-free list. -/
def getNeighbors (g : MemoryGraph) (id : String) (depth : Nat := 1) : List String :=
  neighborLoop g id depth [] [id]

/-- A minimal entry with the given id and no metadata. -/
def entW (i : String) : MemoryEntry :=
  { id := i, metadata := none, accessCount := 0, createdAt := 0
    references := [], embedding := none }

/-- A small configuration with `maxNodes = 3` and whole-number thresholds. -/
def cfg3 : MemoryGraphConfig :=
  { similarityThreshold := 1, pageRankDamping := 1, pageRankIterations := 1
    pageRankConvergence := 1, maxNodes := 3 }

/-- A graph at capacity: `e1 e2 e3` inserted with `maxNodes = 3`. -/
def gFull : MemoryGraph :=
  [entW "e1", entW "e2", entW "e3"].foldl addNode (mkGraph cfg3)

/-- A concrete entry whose metadata carries falsy values. -/
def entFalsy : MemoryEntry :=
  { id := "f", metadata := some { category := some "", confidence := some 0 }
    accessCount := 0, createdAt := 0, references := [], embedding := none }

/-- A fixed `(u, v)` pair hit by a sequence of `addEdge` calls with varying
types and weights. -/
def addEdgeCalls (g : MemoryGraph) (u v : String)
    (calls : List (EdgeType × ℚ)) : MemoryGraph :=
  calls.foldl (fun h c => addEdge h u v c.1 c.2) g

/-- Total number of stored edges (sum of all out-list lengths). -/
def totalEdges (g : MemoryGraph) : Nat :=
  (g.edges.map (fun p => p.2.length)).sum

/-- A graph holding only the node `a`. -/
def gCx : MemoryGraph := addNode (mkGraph cfg3) (entW "a")

/-- The entry `a` with an embedding. -/
def entA : MemoryEntry := { entW "a" with embedding := some [1] }

/-- A backend whose search returns an entry (`b`) that is not a node of the
graph. -/
def backendCx : Backend :=
  { get := fun i => if i = "a" then some entA else none
    search := fun _ _ _ => [⟨entW "b", 1⟩] }

/-- The entry `e1` with an embedding. -/
def entE1 : MemoryEntry := { entW "e1" with embedding := some [1] }

/-- A well-behaved backend: search returns only graph nodes. -/
def backendW : Backend :=
  { get := fun i => if i = "e1" then some entE1 else none
    search := fun _ _ _ => [⟨entW "e2", 1⟩, ⟨entW "e3", 1⟩] }

/-- A structural mutation request on the graph. -/
inductive GraphOp where
  | addN (e : MemoryEntry)
  | addE (u v : String) (t : EdgeType) (w : ℚ)
  | remN (id : String)

/-- Apply one mutation operation. -/
def applyOp (g : MemoryGraph) : GraphOp → MemoryGraph
  | .addN e => addNode g e
  | .addE u v t w => addEdge g u v t w
  | .remN id => removeNode g id

/-- Whether an operation passes its guard (is not an early-return no-op). -/
def opCommits (g : MemoryGraph) : GraphOp → Bool
  | .addN e => decide (¬ (g.nodes.length ≥ g.config.maxNodes ∧
      ¬ mapHas g.nodes e.id))
  | .addE u v _ _ => mapHas g.nodes u && mapHas g.nodes v
  | .remN id => mapHas g.nodes id

/-- Whether any operation of a sequence passes its guard when the sequence is
applied in order. -/
def anyCommits (g : MemoryGraph) : List GraphOp → Bool
  | [] => false
  | op :: ops => opCommits g op || anyCommits (applyOp g op) ops

/-- A two-node graph with the edge `a → b` of weight 1. -/
def gAB : MemoryGraph :=
  addEdge (addNode (addNode (mkGraph cfg3) (entW "a")) (entW "b")) "a" "b"
    EdgeType.reference 1

/-- Models `gAB` right after a PageRank computation (dirty is clear). -/
def gABClean : MemoryGraph := (computePageRank gAB).2

/-- The dangling-node scenario: nodes `A B C`, edges `A→B` and `A→C` of
weight 1, default configuration (damping 0.85). -/
def gC7 : MemoryGraph :=
  addEdge
    (addEdge
      (addNode (addNode (addNode (mkGraph defaultConfig) (entW "A")) (entW "B"))
        (entW "C"))
      "A" "B" EdgeType.reference 1)
    "A" "C" EdgeType.reference 1

/-- Concrete search results for the ranking witness. -/
def rsW : List SearchResult := [⟨entW "b", 9/10⟩, ⟨entW "a", 8/10⟩]

/-- Well-formedness of the graph state: unique map keys, edges between
existing nodes, duplicate-free out-target and reverse-index lists, and a
reverse index that matches the forward edges exactly.  All quantifiers are
bounded, so the predicate is decidable on concrete graphs. -/
def WF (g : MemoryGraph) : Prop :=
  (mapKeys g.nodes).Nodup ∧
  (mapKeys g.edges).Nodup ∧
  (mapKeys g.reverseEdges).Nodup ∧
  (∀ k ∈ mapKeys g.edges, k ∈ mapKeys g.nodes) ∧
  (∀ k ∈ mapKeys g.reverseEdges, k ∈ mapKeys g.nodes) ∧
  (∀ u ∈ mapKeys g.edges, ∀ e ∈ outList g u, e.targetId ∈ mapKeys g.nodes) ∧
  (∀ u ∈ mapKeys g.edges, ((outList g u).map (fun e => e.targetId)).Nodup) ∧
  (∀ u ∈ mapKeys g.reverseEdges, (revList g u).Nodup) ∧
  (∀ u ∈ mapKeys g.reverseEdges, ∀ v ∈ revList g u,
    ∃ e ∈ outList g v, e.targetId = u) ∧
  (∀ v ∈ mapKeys g.edges, ∀ e ∈ outList g v, v ∈ revList g e.targetId) ∧
  (∀ k ∈ mapKeys g.pageRanks, k ∈ mapKeys g.nodes) ∧
  (mapKeys g.pageRanks).Nodup

instance decidableWF (g : MemoryGraph) : Decidable (WF g) := by
  unfold WF
  infer_instance

/-- Sum of the values of a rank map. -/
def sumValues (m : AList ℚ) : ℚ := (m.map (fun p => p.2)).sum

/-- Sum of the ranks looked up at the node keys. -/
def rankSum (g : MemoryGraph) (ranks : AList ℚ) : ℚ :=
  ((mapKeys g.nodes).map (rankOf ranks)).sum

/-- Modelled from the spec: the forward-successor set of a set of nodes. -/
def targetsOfSet (g : MemoryGraph) (S : Set String) : Set String :=
  {v | ∃ u ∈ S, ∃ e ∈ outList g u, e.targetId = v}

/-- Modelled from the spec: the ids reachable from `S` within `n` forward
hops over outgoing edges. -/
def expand (g : MemoryGraph) (S : Set String) : Nat → Set String
  | 0 => S
  | n + 1 => expand g S n ∪ targetsOfSet g (expand g S n)

/-- A small configuration admitting four nodes. -/
def cfgT : MemoryGraphConfig :=
  { similarityThreshold := 1, pageRankDamping := 1, pageRankIterations := 1
    pageRankConvergence := 1, maxNodes := 10 }

/-- The chain `A → B → C → D`. -/
def gChain : MemoryGraph :=
  addEdge
    (addEdge
      (addEdge
        (addNode (addNode (addNode (addNode (mkGraph cfgT) (entW "A"))
          (entW "B")) (entW "C")) (entW "D"))
        "A" "B" EdgeType.reference 1)
      "B" "C" EdgeType.reference 1)
    "C" "D" EdgeType.reference 1

-- ===== Theorems =====

theorem mapGet_nil {α : Type} (k : String) : mapGet ([] : AList α) k = none := rfl

theorem mapGet_cons {α : Type} (p : String × α) (rest : AList α) (k : String) :
    mapGet (p :: rest) k = if p.1 = k then some p.2 else mapGet rest k := by
  by_cases h : p.1 = k <;> simp [mapGet, List.find?, h]

theorem mapKeys_cons {α : Type} (p : String × α) (rest : AList α) :
    mapKeys (p :: rest) = p.1 :: mapKeys rest := rfl

theorem mem_mapKeys_cons {α : Type} (p : String × α) (rest : AList α) (k : String) :
    k ∈ mapKeys (p :: rest) ↔ p.1 = k ∨ k ∈ mapKeys rest := by
  rw [mapKeys_cons, List.mem_cons, eq_comm]

theorem mapSet_cons {α : Type} (p : String × α) (rest : AList α) (k : String) (v : α) :
    mapSet (p :: rest) k v = if p.1 = k then (k, v) :: rest else p :: mapSet rest k v := rfl

theorem mapHas_iff_mem_keys {α : Type} (m : AList α) (k : String) :
    mapHas m k = true ↔ k ∈ mapKeys m := by
  induction m with
  | nil => simp [mapHas, mapKeys]
  | cons p rest ih =>
    rw [mem_mapKeys_cons]
    simp only [mapHas, List.any_cons] at ih ⊢
    by_cases h : p.1 = k <;> simp [h, ih]

theorem mapGet_eq_none_iff {α : Type} (m : AList α) (k : String) :
    mapGet m k = none ↔ k ∉ mapKeys m := by
  induction m with
  | nil => simp [mapGet_nil, mapKeys]
  | cons p rest ih =>
    rw [mapGet_cons, mem_mapKeys_cons]
    by_cases h : p.1 = k <;> simp [h, ih]

theorem mapGet_isSome_iff {α : Type} (m : AList α) (k : String) :
    (mapGet m k).isSome = true ↔ k ∈ mapKeys m := by
  rw [← Decidable.not_iff_not, ← mapGet_eq_none_iff, Option.not_isSome_iff_eq_none]

theorem mapGet_mem_keys {α : Type} {m : AList α} {k : String} {v : α}
    (h : mapGet m k = some v) : k ∈ mapKeys m := by
  rw [← mapGet_isSome_iff, h]; rfl

theorem mapGet_mapSet_self {α : Type} (m : AList α) (k : String) (v : α) :
    mapGet (mapSet m k v) k = some v := by
  induction m with
  | nil => simp [mapSet, mapGet_cons]
  | cons p rest ih =>
    rw [mapSet_cons]
    by_cases h : p.1 = k
    · rw [if_pos h, mapGet_cons, if_pos rfl]
    · rw [if_neg h, mapGet_cons, if_neg h, ih]

theorem mapGet_mapSet_ne {α : Type} (m : AList α) (k k' : String) (v : α)
    (h : k' ≠ k) : mapGet (mapSet m k v) k' = mapGet m k' := by
  induction m with
  | nil => simp [mapSet, mapGet_cons, Ne.symm h]
  | cons p rest ih =>
    rw [mapSet_cons]
    by_cases hp : p.1 = k
    · rw [if_pos hp, mapGet_cons, mapGet_cons, if_neg (Ne.symm h),
        if_neg (by rw [hp]; exact Ne.symm h)]
    · rw [if_neg hp, mapGet_cons, mapGet_cons, ih]

theorem mapKeys_mapSet_mem {α : Type} (m : AList α) (k : String) (v : α)
    (h : k ∈ mapKeys m) : mapKeys (mapSet m k v) = mapKeys m := by
  induction m with
  | nil => simp [mapKeys] at h
  | cons p rest ih =>
    rw [mapSet_cons]
    by_cases hp : p.1 = k
    · rw [if_pos hp, mapKeys_cons, mapKeys_cons, hp]
    · rw [if_neg hp, mapKeys_cons, mapKeys_cons,
        ih ((mem_mapKeys_cons p rest k).mp h |>.resolve_left hp)]

theorem mapKeys_mapSet_not_mem {α : Type} (m : AList α) (k : String) (v : α)
    (h : k ∉ mapKeys m) : mapKeys (mapSet m k v) = mapKeys m ++ [k] := by
  induction m with
  | nil => simp [mapSet, mapKeys]
  | cons p rest ih =>
    rw [mem_mapKeys_cons] at h
    push_neg at h
    rw [mapSet_cons, if_neg h.1, mapKeys_cons, mapKeys_cons, ih h.2]
    rfl

theorem length_mapSet_mem {α : Type} (m : AList α) (k : String) (v : α)
    (h : k ∈ mapKeys m) : (mapSet m k v).length = m.length := by
  induction m with
  | nil => simp [mapKeys] at h
  | cons p rest ih =>
    rw [mapSet_cons]
    by_cases hp : p.1 = k
    · rw [if_pos hp]; simp
    · rw [if_neg hp]
      simp only [List.length_cons]
      rw [ih ((mem_mapKeys_cons p rest k).mp h |>.resolve_left hp)]

theorem length_mapSet_not_mem {α : Type} (m : AList α) (k : String) (v : α)
    (h : k ∉ mapKeys m) : (mapSet m k v).length = m.length + 1 := by
  induction m with
  | nil => simp [mapSet]
  | cons p rest ih =>
    rw [mem_mapKeys_cons] at h
    push_neg at h
    rw [mapSet_cons, if_neg h.1]
    simp only [List.length_cons]
    rw [ih h.2]

theorem mapSet_mapSet_same {α : Type} (m : AList α) (k : String) (v w : α) :
    mapSet (mapSet m k v) k w = mapSet m k w := by
  induction m with
  | nil => simp [mapSet]
  | cons p rest ih =>
    rw [mapSet_cons]
    by_cases hp : p.1 = k
    · rw [if_pos hp, mapSet_cons, if_pos rfl, mapSet_cons, if_pos hp]
    · rw [if_neg hp, mapSet_cons, if_neg hp, mapSet_cons, if_neg hp, ih]

theorem mapKeys_nodup_mapSet {α : Type} (m : AList α) (k : String) (v : α)
    (h : (mapKeys m).Nodup) : (mapKeys (mapSet m k v)).Nodup := by
  by_cases hk : k ∈ mapKeys m
  · rw [mapKeys_mapSet_mem m k v hk]; exact h
  · rw [mapKeys_mapSet_not_mem m k v hk]
    simpa [List.nodup_append] using ⟨h, hk⟩

theorem mapGet_mapDelete_self {α : Type} (m : AList α) (k : String) :
    mapGet (mapDelete m k) k = none := by
  rw [mapGet_eq_none_iff]
  intro hmem
  simp only [mapKeys, mapDelete, List.mem_map] at hmem
  obtain ⟨p, hp, he⟩ := hmem
  rw [List.mem_filter] at hp
  exact (by simpa [he] using hp.2 : ¬ True) trivial

theorem mapGet_mapDelete_ne {α : Type} (m : AList α) (k k' : String)
    (h : k' ≠ k) : mapGet (mapDelete m k) k' = mapGet m k' := by
  induction m with
  | nil => simp [mapDelete]
  | cons p rest ih =>
    by_cases hp : p.1 = k
    · have : ¬ (p.1 = k') := by rw [hp]; exact Ne.symm h
      rw [mapGet_cons, if_neg this]
      show mapGet (List.filter _ (p :: rest)) k' = _
      rw [List.filter_cons, if_neg (by simp [hp])]
      exact ih
    · show mapGet (List.filter _ (p :: rest)) k' = _
      rw [List.filter_cons, if_pos (by simp [hp]), mapGet_cons, mapGet_cons]
      by_cases hp' : p.1 = k'
      · rw [if_pos hp', if_pos hp']
      · rw [if_neg hp', if_neg hp']
        exact ih

theorem mapKeys_mapDelete {α : Type} (m : AList α) (k : String) :
    mapKeys (mapDelete m k) = (mapKeys m).filter (fun x => x ≠ k) := by
  induction m with
  | nil => rfl
  | cons p rest ih =>
    show mapKeys (List.filter _ (p :: rest)) = _
    rw [List.filter_cons, mapKeys_cons, List.filter_cons]
    by_cases hp : p.1 = k
    · rw [if_neg (by simp [hp]), if_neg (by simp [hp])]
      exact ih
    · rw [if_pos (by simp [hp]), if_pos (by simp [hp]), mapKeys_cons]
      exact congrArg (p.1 :: ·) ih

theorem mem_mapKeys_mapDelete {α : Type} (m : AList α) (k k' : String) :
    k' ∈ mapKeys (mapDelete m k) ↔ k' ∈ mapKeys m ∧ k' ≠ k := by
  rw [mapKeys_mapDelete]; simp [List.mem_filter]

theorem addNode_config (g : MemoryGraph) (e : MemoryEntry) :
    (addNode g e).config = g.config := by
  unfold addNode
  split <;> rfl

theorem addNode_length_le (g : MemoryGraph) (e : MemoryEntry)
    (h : g.nodes.length ≤ g.config.maxNodes) :
    (addNode g e).nodes.length ≤ g.config.maxNodes := by
  unfold addNode
  split
  · exact h
  · rename_i hguard
    simp only
    by_cases hhas : mapHas g.nodes e.id = true
    · rw [length_mapSet_mem g.nodes e.id _ ((mapHas_iff_mem_keys _ _).mp hhas)]
      exact h
    · have hlt : g.nodes.length < g.config.maxNodes := by
        rcases Nat.lt_or_ge g.nodes.length g.config.maxNodes with hlt | hge
        · exact hlt
        · exact absurd ⟨hge, by simpa using hhas⟩ hguard
      rw [length_mapSet_not_mem g.nodes e.id _
        (fun hm => hhas ((mapHas_iff_mem_keys _ _).mpr hm))]
      omega

theorem foldl_addNode_config (entries : List MemoryEntry) (g : MemoryGraph) :
    (entries.foldl addNode g).config = g.config := by
  induction entries generalizing g with
  | nil => rfl
  | cons e rest ih =>
    simp only [List.foldl_cons]
    rw [ih, addNode_config]

theorem foldl_addNode_length_le (entries : List MemoryEntry) (g : MemoryGraph)
    (h : g.nodes.length ≤ g.config.maxNodes) :
    (entries.foldl addNode g).nodes.length ≤ (entries.foldl addNode g).config.maxNodes := by
  induction entries generalizing g with
  | nil => exact h
  | cons e rest ih =>
    simp only [List.foldl_cons]
    exact ih (addNode g e) (by rw [addNode_config]; exact addNode_length_le g e h)

/-- C3: for every configuration and every sequence of `add_node` calls the
node count never exceeds `max_nodes`; a capacity-blocked insert of a fresh id
is a complete no-op (the state is unchanged); re-adding a present id is always
accepted and replaces the stored node. -/
theorem capacity_invariant :
    (∀ (config : MemoryGraphConfig) (entries : List MemoryEntry),
      (entries.foldl addNode (mkGraph config)).nodes.length ≤ config.maxNodes) ∧
    (∀ (g : MemoryGraph) (e : MemoryEntry),
      g.nodes.length ≥ g.config.maxNodes → mapHas g.nodes e.id = false →
      addNode g e = g) ∧
    (∀ (g : MemoryGraph) (e : MemoryEntry), mapHas g.nodes e.id = true →
      mapGet (addNode g e).nodes e.id = some (mkGraphNode e)) := by
  refine ⟨?_, ?_, ?_⟩
  · intro config entries
    have h := foldl_addNode_length_le entries (mkGraph config) (by simp [mkGraph])
    rw [foldl_addNode_config entries (mkGraph config)] at h
    exact h
  · intro g e hlen hhas
    unfold addNode
    rw [if_pos ⟨hlen, by simp [hhas]⟩]
  · intro g e hhas
    unfold addNode
    rw [if_neg (by simp [hhas])]
    exact mapGet_mapSet_self g.nodes e.id (mkGraphNode e)

/-- Witness for `capacity_invariant` at the spec's concrete capacity scenario. -/
theorem capacity_invariant_witness :
    ([entW "e1", entW "e2", entW "e3", entW "e4", entW "e5"].foldl addNode
      (mkGraph cfg3)).nodes.length ≤ 3 ∧
    addNode gFull (entW "e4") = gFull ∧
    mapGet (addNode gFull (entW "e1")).nodes "e1" = some (mkGraphNode (entW "e1")) :=
  ⟨capacity_invariant.1 cfg3 _,
   capacity_invariant.2.1 gFull (entW "e4") (by decide) (by decide),
   capacity_invariant.2.2 gFull (entW "e1") (by decide)⟩

/-- C10: `addNode` applies the defaults to every falsy metadata value, not
only to absent fields: an explicit confidence of `0` is stored as `0.5`, an
empty-string category as `"general"`, and a stored node's confidence is
never `0`. -/
theorem addNode_falsy_defaults :
    (∀ (g : MemoryGraph) (e : MemoryEntry),
      (g.nodes.length < g.config.maxNodes ∨ mapHas g.nodes e.id = true) →
      mapGet (addNode g e).nodes e.id = some (mkGraphNode e)) ∧
    (∀ e : MemoryEntry, e.metadata.bind (·.confidence) = some 0 →
      (mkGraphNode e).confidence = 5/10) ∧
    (∀ e : MemoryEntry, e.metadata.bind (·.category) = some "" →
      (mkGraphNode e).category = "general") ∧
    (∀ e : MemoryEntry, (mkGraphNode e).confidence ≠ 0) := by
  refine ⟨?_, ?_, ?_, ?_⟩
  · intro g e h
    unfold addNode
    rw [if_neg]
    · exact mapGet_mapSet_self g.nodes e.id (mkGraphNode e)
    · rintro ⟨hge, hhas⟩
      rcases h with hlt | hmem
      · omega
      · simp [hmem] at hhas
  · intro e h
    simp [mkGraphNode, jsOrNum, h]
  · intro e h
    simp [mkGraphNode, jsOrString, h]
  · intro e
    simp only [mkGraphNode, jsOrNum]
    cases hc : e.metadata.bind (·.confidence) with
    | none => norm_num
    | some c =>
      by_cases h0 : c = 0 <;> simp [h0]

/-- Witness for `addNode_falsy_defaults` at a concrete falsy entry. -/
theorem addNode_falsy_defaults_witness :
    mapGet (addNode (mkGraph cfg3) entFalsy).nodes "f" = some (mkGraphNode entFalsy) ∧
    (mkGraphNode entFalsy).confidence = 5/10 ∧
    (mkGraphNode entFalsy).category = "general" ∧
    (mkGraphNode entFalsy).confidence ≠ 0 :=
  ⟨addNode_falsy_defaults.1 (mkGraph cfg3) entFalsy (Or.inl (by decide)),
   addNode_falsy_defaults.2.1 entFalsy rfl,
   addNode_falsy_defaults.2.2.1 entFalsy rfl,
   addNode_falsy_defaults.2.2.2 entFalsy⟩

theorem mem_setAdd_self (s : List String) (x : String) : x ∈ setAdd s x := by
  unfold setAdd
  split
  · assumption
  · simp

theorem setAdd_of_mem {s : List String} {x : String} (h : x ∈ s) :
    setAdd s x = s := by
  unfold setAdd
  rw [if_pos h]

theorem setAdd_idem (s : List String) (x : String) :
    setAdd (setAdd s x) x = setAdd s x :=
  setAdd_of_mem (mem_setAdd_self s x)

theorem updateEdgeWeight_idem (l : List GraphEdge) (v : String) (w : ℚ) :
    updateEdgeWeight (updateEdgeWeight l v w) v w = updateEdgeWeight l v w := by
  induction l with
  | nil => rfl
  | cons e rest ih =>
    by_cases h : e.targetId = v
    · simp only [updateEdgeWeight, if_pos h]
      simp [max_assoc]
    · simp only [updateEdgeWeight, if_neg h]
      rw [ih]

theorem updateEdgeWeight_fresh (l : List GraphEdge) (v : String) (w : ℚ)
    (h : ∀ e ∈ l, e.targetId ≠ v) : updateEdgeWeight l v w = l := by
  induction l with
  | nil => rfl
  | cons e rest ih =>
    simp only [updateEdgeWeight, if_neg (h e (by simp))]
    rw [ih (fun e he => h e (by simp [he]))]

theorem updateEdgeWeight_append_fresh (l : List GraphEdge) (v : String)
    (t : EdgeType) (w : ℚ) (h : ∀ e ∈ l, e.targetId ≠ v) :
    updateEdgeWeight (l ++ [⟨v, t, w⟩]) v w = l ++ [⟨v, t, w⟩] := by
  induction l with
  | nil => simp [updateEdgeWeight]
  | cons e rest ih =>
    simp only [List.cons_append, updateEdgeWeight, if_neg (h e (by simp)),
      List.append_eq]
    rw [ih (fun e he => h e (by simp [he]))]

theorem updateEdgeWeight_targets (l : List GraphEdge) (v : String) (w : ℚ) :
    (updateEdgeWeight l v w).map (fun e => e.targetId) =
      l.map (fun e => e.targetId) := by
  induction l with
  | nil => rfl
  | cons e rest ih =>
    by_cases h : e.targetId = v
    · simp [updateEdgeWeight, if_pos h]
    · simp only [updateEdgeWeight, if_neg h, List.map_cons]
      rw [ih]

theorem any_target_updateEdgeWeight (l : List GraphEdge) (v x : String) (w : ℚ) :
    (updateEdgeWeight l v w).any (fun e => e.targetId = x) =
      l.any (fun e => e.targetId = x) := by
  have h1 : ∀ m : List GraphEdge,
      (m.any fun e => decide (e.targetId = x)) =
        ((m.map (fun e => e.targetId)).any fun s => decide (s = x)) := by
    intro m
    induction m with
    | nil => rfl
    | cons e rest ih => simp [ih]
  rw [h1, h1, updateEdgeWeight_targets]

theorem any_newEdgeList (l : List GraphEdge) (v : String) (t : EdgeType) (w : ℚ) :
    (newEdgeList l v t w).any (fun e => e.targetId = v) = true := by
  unfold newEdgeList
  split
  · rename_i hany
    rw [any_target_updateEdgeWeight]
    exact hany
  · simp

theorem newEdgeList_self (l : List GraphEdge) (v : String) (t : EdgeType) (w : ℚ) :
    newEdgeList (newEdgeList l v t w) v t w = newEdgeList l v t w := by
  by_cases hany : (l.any fun e => e.targetId = v) = true
  · have h1 : newEdgeList l v t w = updateEdgeWeight l v w := by
      unfold newEdgeList
      rw [if_pos hany]
    rw [h1]
    unfold newEdgeList
    rw [if_pos (by rw [any_target_updateEdgeWeight]; exact hany)]
    exact updateEdgeWeight_idem l v w
  · have h1 : newEdgeList l v t w = l ++ [⟨v, t, w⟩] := by
      unfold newEdgeList
      rw [if_neg hany]
    rw [h1]
    unfold newEdgeList
    rw [if_pos (by simp)]
    apply updateEdgeWeight_append_fresh
    intro e he hev
    exact hany (List.any_eq_true.mpr ⟨e, he, by simpa using hev⟩)

theorem newRevIndex_idem (R : AList (List String)) (u v : String) :
    newRevIndex (newRevIndex R u v) u v = newRevIndex R u v := by
  unfold newRevIndex
  simp only
  set rev0 := if mapHas R v then R else mapSet R v [] with hrev0
  set s := (mapGet rev0 v).getD [] with hs
  have hhas : mapHas (mapSet rev0 v (setAdd s u)) v = true := by
    rw [mapHas_iff_mem_keys]
    exact mapGet_mem_keys (mapGet_mapSet_self rev0 v (setAdd s u))
  rw [if_pos hhas, mapGet_mapSet_self rev0 v (setAdd s u)]
  simp only [Option.getD_some]
  rw [setAdd_idem, mapSet_mapSet_same]

theorem addEdge_neg {g : MemoryGraph} {u v : String} (ty : EdgeType) (w : ℚ)
    (h : ¬ (mapHas g.nodes u ∧ mapHas g.nodes v)) : addEdge g u v ty w = g := by
  unfold addEdge
  rw [if_pos h]

theorem addEdge_pos {g : MemoryGraph} {u v : String} (ty : EdgeType) (w : ℚ)
    (h : mapHas g.nodes u ∧ mapHas g.nodes v) :
    addEdge g u v ty w =
      { g with
        edges := mapSet g.edges u (newEdgeList (outList g u) v ty w)
        reverseEdges := newRevIndex g.reverseEdges u v
        dirty := true } := by
  unfold addEdge
  rw [if_neg (not_not_intro h)]

theorem addEdge_nodes (g : MemoryGraph) (u v : String) (ty : EdgeType) (w : ℚ) :
    (addEdge g u v ty w).nodes = g.nodes := by
  unfold addEdge
  split <;> rfl

theorem addEdge_idem (g : MemoryGraph) (u v : String) (t : EdgeType) (w : ℚ) :
    addEdge (addEdge g u v t w) u v t w = addEdge g u v t w := by
  by_cases h : mapHas g.nodes u ∧ mapHas g.nodes v
  · rw [addEdge_pos t w h]
    unfold addEdge
    rw [if_neg (not_not_intro h)]
    have houtl : outList
        { g with
          edges := mapSet g.edges u (newEdgeList (outList g u) v t w)
          reverseEdges := newRevIndex g.reverseEdges u v
          dirty := true } u = newEdgeList (outList g u) v t w := by
      unfold outList
      simp only
      rw [mapGet_mapSet_self]
      rfl
    rw [houtl, newEdgeList_self, newRevIndex_idem, mapSet_mapSet_same]
  · rw [addEdge_neg t w h, addEdge_neg t w h]

theorem graph_ext {a b : MemoryGraph} (hn : a.nodes = b.nodes)
    (he : a.edges = b.edges) (hr : a.reverseEdges = b.reverseEdges)
    (hp : a.pageRanks = b.pageRanks) (hc : a.communities = b.communities)
    (hcf : a.config = b.config) (hd : a.dirty = b.dirty) : a = b := by
  cases a
  cases b
  simp_all

theorem addNode_pos {g : MemoryGraph} {e : MemoryEntry}
    (h : ¬ (g.nodes.length ≥ g.config.maxNodes ∧ ¬ mapHas g.nodes e.id)) :
    addNode g e =
      { g with
        nodes := mapSet g.nodes e.id (mkGraphNode e)
        edges := if mapHas g.edges e.id then g.edges
                 else mapSet g.edges e.id []
        reverseEdges := if mapHas g.reverseEdges e.id then g.reverseEdges
                        else mapSet g.reverseEdges e.id []
        dirty := true } := by
  unfold addNode
  rw [if_neg h]

theorem addNode_pageRanks (g : MemoryGraph) (e : MemoryEntry) :
    (addNode g e).pageRanks = g.pageRanks := by
  unfold addNode
  split <;> rfl

theorem addNode_communities (g : MemoryGraph) (e : MemoryEntry) :
    (addNode g e).communities = g.communities := by
  unfold addNode
  split <;> rfl

theorem addNode_idem (g : MemoryGraph) (e : MemoryEntry) :
    addNode (addNode g e) e = addNode g e := by
  by_cases h : g.nodes.length ≥ g.config.maxNodes ∧ ¬ mapHas g.nodes e.id
  · unfold addNode
    rw [if_pos h, if_pos h]
  · rw [addNode_pos h]
    have hhasN : mapHas (mapSet g.nodes e.id (mkGraphNode e)) e.id = true := by
      rw [mapHas_iff_mem_keys]
      exact mapGet_mem_keys (mapGet_mapSet_self g.nodes e.id (mkGraphNode e))
    have hguard : ¬ ((mapSet g.nodes e.id (mkGraphNode e)).length ≥
        g.config.maxNodes ∧ ¬ mapHas (mapSet g.nodes e.id (mkGraphNode e)) e.id) := by
      rintro ⟨_, hno⟩
      exact hno hhasN
    rw [addNode_pos hguard]
    apply graph_ext
    · exact mapSet_mapSet_same g.nodes e.id _ _
    · by_cases hE : mapHas g.edges e.id = true
      · simp only [if_pos hE]
      · simp only [if_neg hE]
        rw [if_pos (by
          rw [mapHas_iff_mem_keys]
          exact mapGet_mem_keys (mapGet_mapSet_self g.edges e.id []))]
    · by_cases hR : mapHas g.reverseEdges e.id = true
      · simp only [if_pos hR]
      · simp only [if_neg hR]
        rw [if_pos (by
          rw [mapHas_iff_mem_keys]
          exact mapGet_mem_keys (mapGet_mapSet_self g.reverseEdges e.id []))]
    · rfl
    · rfl
    · rfl
    · rfl

theorem outList_addEdge_self {g : MemoryGraph} {u v : String} (ty : EdgeType)
    (w : ℚ) (h : mapHas g.nodes u ∧ mapHas g.nodes v) :
    outList (addEdge g u v ty w) u = newEdgeList (outList g u) v ty w := by
  rw [addEdge_pos ty w h]
  unfold outList
  simp only
  rw [mapGet_mapSet_self]
  rfl

theorem filter_updateEdgeWeight (l : List GraphEdge) (v : String) (w : ℚ) :
    (updateEdgeWeight l v w).filter (fun e => e.targetId = v) =
      match l.filter (fun e => e.targetId = v) with
      | [] => []
      | e :: rest => { e with weight := max e.weight w } :: rest := by
  induction l with
  | nil => rfl
  | cons e rest ih =>
    by_cases h : e.targetId = v
    · simp only [updateEdgeWeight, if_pos h, List.filter_cons]
      rw [if_pos (by simpa using h), if_pos (by simpa using h)]
    · simp only [updateEdgeWeight, if_neg h, List.filter_cons]
      rw [if_neg (by simpa using h), if_neg (by simpa using h)]
      exact ih

theorem addEdgeCalls_filter (u v : String) (calls : List (EdgeType × ℚ)) :
    ∀ (g : MemoryGraph) (e0 : GraphEdge),
    mapHas g.nodes u = true → mapHas g.nodes v = true →
    (outList g u).filter (fun e => e.targetId = v) = [e0] →
    (outList (addEdgeCalls g u v calls) u).filter (fun e => e.targetId = v) =
      [{ e0 with weight := calls.foldl (fun a c => max a c.2) e0.weight }] := by
  induction calls with
  | nil =>
    intro g e0 hu hv he0
    exact he0
  | cons c cs ih =>
    intro g e0 hu hv he0
    have hany : (outList g u).any (fun e => e.targetId = v) = true := by
      rw [List.any_eq_true]
      have : e0 ∈ (outList g u).filter (fun e => e.targetId = v) := by
        rw [he0]; simp
      rw [List.mem_filter] at this
      exact ⟨e0, this.1, this.2⟩
    have hout1 : outList (addEdge g u v c.1 c.2) u =
        updateEdgeWeight (outList g u) v c.2 := by
      rw [outList_addEdge_self c.1 c.2 ⟨hu, hv⟩]
      unfold newEdgeList
      rw [if_pos hany]
    have hfilter1 : (outList (addEdge g u v c.1 c.2) u).filter
        (fun e => e.targetId = v) = [{ e0 with weight := max e0.weight c.2 }] := by
      rw [hout1, filter_updateEdgeWeight, he0]
    have hnodes : (addEdge g u v c.1 c.2).nodes = g.nodes :=
      addEdge_nodes g u v c.1 c.2
    show (outList (addEdgeCalls (addEdge g u v c.1 c.2) u v cs) u).filter
        (fun e => e.targetId = v) = _
    rw [ih (addEdge g u v c.1 c.2) { e0 with weight := max e0.weight c.2 }
      (by rw [hnodes]; exact hu) (by rw [hnodes]; exact hv) hfilter1]
    rfl

/-- C4: at most one edge per ordered pair `(u, v)`: after any sequence of
`addEdge(u, v, tᵢ, wᵢ)` calls on existing nodes starting from a state with no
`(u, v)` edge, the `(u, v)` edges form a single edge whose type is the first
call's type and whose weight is the maximum weight passed; moreover both
`addEdge` and `addNode` are idempotent. -/
theorem edge_pair_unique :
    (∀ (g : MemoryGraph) (u v : String) (t : EdgeType) (w : ℚ),
      addEdge (addEdge g u v t w) u v t w = addEdge g u v t w) ∧
    (∀ (g : MemoryGraph) (e : MemoryEntry), addNode (addNode g e) e = addNode g e) ∧
    (∀ (g : MemoryGraph) (u v : String) (t1 : EdgeType) (w1 : ℚ)
      (rest : List (EdgeType × ℚ)),
      mapHas g.nodes u = true → mapHas g.nodes v = true →
      (∀ e ∈ outList g u, e.targetId ≠ v) →
      (outList (addEdgeCalls g u v ((t1, w1) :: rest)) u).filter
          (fun e => e.targetId = v) =
        [⟨v, t1, rest.foldl (fun a c => max a c.2) w1⟩]) := by
  refine ⟨addEdge_idem, addNode_idem, ?_⟩
  intro g u v t1 w1 rest hu hv hfresh
  have hfirst : (outList (addEdge g u v t1 w1) u).filter
      (fun e => e.targetId = v) = [⟨v, t1, w1⟩] := by
    rw [outList_addEdge_self t1 w1 ⟨hu, hv⟩]
    unfold newEdgeList
    rw [if_neg (by
      intro hany
      obtain ⟨e, he, hev⟩ := List.any_eq_true.mp hany
      exact hfresh e he (by simpa using hev))]
    rw [List.filter_append]
    rw [List.filter_eq_nil_iff.mpr (by
      intro e he
      simpa using hfresh e he)]
    simp
  have hnodes : (addEdge g u v t1 w1).nodes = g.nodes := addEdge_nodes g u v t1 w1
  show (outList (addEdgeCalls (addEdge g u v t1 w1) u v rest) u).filter
      (fun e => e.targetId = v) = _
  rw [addEdgeCalls_filter u v rest (addEdge g u v t1 w1) ⟨v, t1, w1⟩
    (by rw [hnodes]; exact hu) (by rw [hnodes]; exact hv) hfirst]

/-- Witness for `edge_pair_unique`: two nodes, three calls with different
types and weights. -/
theorem edge_pair_unique_witness :
    addEdge (addEdge gFull "e1" "e2" EdgeType.reference 1) "e1" "e2"
        EdgeType.reference 1 =
      addEdge gFull "e1" "e2" EdgeType.reference 1 ∧
    addNode (addNode gFull (entW "e1")) (entW "e1") = addNode gFull (entW "e1") ∧
    (outList (addEdgeCalls gFull "e1" "e2"
        [(EdgeType.reference, 1), (EdgeType.similar, 3), (EdgeType.causal, 2)]) "e1").filter
        (fun e => e.targetId = "e2") =
      [⟨"e2", EdgeType.reference, [(EdgeType.similar, (3:ℚ)), (EdgeType.causal, 2)].foldl
        (fun a c => max a c.2) 1⟩] :=
  ⟨edge_pair_unique.1 gFull "e1" "e2" EdgeType.reference 1,
   edge_pair_unique.2.1 gFull (entW "e1"),
   edge_pair_unique.2.2 gFull "e1" "e2" EdgeType.reference 1
     [(EdgeType.similar, 3), (EdgeType.causal, 2)]
     (by decide) (by decide) (by decide)⟩

theorem edgesSum_mapSet_present {m : AList (List GraphEdge)} {k : String}
    {l0 : List GraphEdge} (h : mapGet m k = some l0) (l1 : List GraphEdge) :
    ((mapSet m k l1).map (fun p => p.2.length)).sum + l0.length =
      (m.map (fun p => p.2.length)).sum + l1.length := by
  induction m with
  | nil => simp [mapGet_nil] at h
  | cons p rest ih =>
    rw [mapGet_cons] at h
    by_cases hp : p.1 = k
    · rw [if_pos hp] at h
      injection h with h
      rw [mapSet_cons, if_pos hp]
      simp [h]
      omega
    · rw [if_neg hp] at h
      rw [mapSet_cons, if_neg hp]
      simp only [List.map_cons, List.sum_cons]
      have := ih h
      omega

theorem edgesSum_mapSet_absent {m : AList (List GraphEdge)} {k : String}
    (h : mapGet m k = none) (l1 : List GraphEdge) :
    ((mapSet m k l1).map (fun p => p.2.length)).sum =
      (m.map (fun p => p.2.length)).sum + l1.length := by
  induction m with
  | nil => simp [mapSet]
  | cons p rest ih =>
    rw [mapGet_cons] at h
    by_cases hp : p.1 = k
    · rw [if_pos hp] at h
      simp at h
    · rw [if_neg hp] at h
      rw [mapSet_cons, if_neg hp]
      simp only [List.map_cons, List.sum_cons]
      have := ih h
      omega

theorem length_updateEdgeWeight (l : List GraphEdge) (v : String) (w : ℚ) :
    (updateEdgeWeight l v w).length = l.length := by
  have h := congrArg List.length (updateEdgeWeight_targets l v w)
  simpa using h

theorem totalEdges_addEdge_hasEdge {g : MemoryGraph} {u v : String}
    (t : EdgeType) (w : ℚ) (h : hasEdge g u v = true) :
    totalEdges (addEdge g u v t w) = totalEdges g := by
  by_cases hg : mapHas g.nodes u ∧ mapHas g.nodes v
  · rw [addEdge_pos t w hg]
    unfold hasEdge at h
    cases hget : mapGet g.edges u with
    | none => rw [hget] at h; simp at h
    | some l =>
      rw [hget] at h
      have hout : outList g u = l := by unfold outList; rw [hget]; rfl
      have hnew : newEdgeList (outList g u) v t w = updateEdgeWeight l v w := by
        unfold newEdgeList
        rw [hout, if_pos h]
      unfold totalEdges
      simp only
      rw [hnew]
      have := edgesSum_mapSet_present hget (updateEdgeWeight l v w)
      rw [length_updateEdgeWeight] at this
      omega
  · rw [addEdge_neg t w hg]

theorem totalEdges_addEdge_fresh {g : MemoryGraph} {u v : String}
    (t : EdgeType) (w : ℚ) (hu : mapHas g.nodes u = true)
    (hv : mapHas g.nodes v = true) (h : hasEdge g u v = false) :
    totalEdges (addEdge g u v t w) = totalEdges g + 1 := by
  rw [addEdge_pos t w ⟨hu, hv⟩]
  unfold totalEdges
  simp only
  cases hget : mapGet g.edges u with
  | none =>
    have hout : outList g u = [] := by unfold outList; rw [hget]; rfl
    have hnew : newEdgeList (outList g u) v t w = [⟨v, t, w⟩] := by
      unfold newEdgeList
      rw [hout]
      simp
    rw [hnew]
    have := edgesSum_mapSet_absent hget [⟨v, t, w⟩]
    simpa using this
  | some l =>
    unfold hasEdge at h
    rw [hget] at h
    have h2 : (l.any fun e => e.targetId = v) = false := h
    have hout : outList g u = l := by unfold outList; rw [hget]; rfl
    have hnew : newEdgeList (outList g u) v t w = l ++ [⟨v, t, w⟩] := by
      unfold newEdgeList
      rw [hout, if_neg (by simp [h2])]
    rw [hnew]
    have := edgesSum_mapSet_present hget (l ++ [⟨v, t, w⟩])
    simp only [List.length_append, List.length_cons, List.length_nil] at this
    omega

theorem simEdgeStep_nodes (entryId : String) (th : ℚ) (acc : Nat × MemoryGraph)
    (r : SearchResult) : (simEdgeStep entryId th acc r).2.nodes = acc.2.nodes := by
  unfold simEdgeStep
  split
  · rfl
  · split
    · exact addEdge_nodes acc.2 entryId r.entry.id EdgeType.similar r.score
    · rfl

theorem simEdgeStep_totalEdges (entryId : String) (th : ℚ)
    (acc : Nat × MemoryGraph) (r : SearchResult)
    (hu : mapHas acc.2.nodes entryId = true)
    (hr : mapHas acc.2.nodes r.entry.id = true) :
    totalEdges (simEdgeStep entryId th acc r).2 + acc.1 =
      totalEdges acc.2 + (simEdgeStep entryId th acc r).1 := by
  unfold simEdgeStep
  split
  · rfl
  · split
    · simp only
      cases hEdge : hasEdge acc.2 entryId r.entry.id with
      | true =>
        rw [if_pos rfl]
        rw [totalEdges_addEdge_hasEdge EdgeType.similar r.score hEdge]
      | false =>
        rw [if_neg (by simp)]
        rw [totalEdges_addEdge_fresh EdgeType.similar r.score hu hr hEdge]
        omega
    · rfl

theorem simEdgeFold_totalEdges (entryId : String) (th : ℚ)
    (results : List SearchResult) : ∀ (acc : Nat × MemoryGraph),
    mapHas acc.2.nodes entryId = true →
    (∀ r ∈ results, mapHas acc.2.nodes r.entry.id = true) →
    totalEdges (results.foldl (simEdgeStep entryId th) acc).2 + acc.1 =
      totalEdges acc.2 + (results.foldl (simEdgeStep entryId th) acc).1 := by
  induction results with
  | nil =>
    intro acc _ _
    rfl
  | cons r rs ih =>
    intro acc hu hall
    simp only [List.foldl_cons]
    have hstep := simEdgeStep_totalEdges entryId th acc r hu (hall r (by simp))
    have hnodes := simEdgeStep_nodes entryId th acc r
    have hrec := ih (simEdgeStep entryId th acc r)
      (by rw [hnodes]; exact hu)
      (fun r2 hr2 => by rw [hnodes]; exact hall r2 (by simp [hr2]))
    omega

/-- C1 (amended): `addSimilarityEdges` returns 0 and leaves the graph
unchanged when the entry is absent or lacks an embedding; otherwise it counts
the candidate results for which no `entryId → target` edge existed when they
were processed, which equals the number of edges actually inserted provided
`entryId` and every candidate target are nodes of the graph. -/
theorem addSimilarityEdges_count :
    (∀ (g : MemoryGraph) (backend : Backend) (entryId : String),
      backend.get entryId = none → addSimilarityEdges g backend entryId = (0, g)) ∧
    (∀ (g : MemoryGraph) (backend : Backend) (entryId : String)
      (entry : MemoryEntry), backend.get entryId = some entry →
      entry.embedding = none → addSimilarityEdges g backend entryId = (0, g)) ∧
    (∀ (g : MemoryGraph) (backend : Backend) (entryId : String)
      (entry : MemoryEntry) (emb : List ℚ),
      backend.get entryId = some entry → entry.embedding = some emb →
      mapHas g.nodes entryId = true →
      (∀ r ∈ backend.search emb 20 g.config.similarityThreshold,
        mapHas g.nodes r.entry.id = true) →
      totalEdges (addSimilarityEdges g backend entryId).2 =
        totalEdges g + (addSimilarityEdges g backend entryId).1) := by
  refine ⟨?_, ?_, ?_⟩
  · intro g backend entryId h
    unfold addSimilarityEdges
    rw [h]
  · intro g backend entryId entry hget hemb
    unfold addSimilarityEdges
    simp only [hget, hemb]
  · intro g backend entryId entry emb hget hemb hu hall
    unfold addSimilarityEdges
    simp only [hget, hemb]
    have h := simEdgeFold_totalEdges entryId g.config.similarityThreshold
      (backend.search emb 20 g.config.similarityThreshold) (0, g) hu hall
    simp only [show (0, g).2 = g from rfl, show ((0, g) : Nat × MemoryGraph).1 = 0
      from rfl] at h
    omega

/-- Counterexample to C1 as stated: the call returns 1 although no edge was
inserted (the candidate target `b` is not a node, so the inner `addEdge` is a
no-op, yet the candidate is counted). -/
theorem addSimilarityEdges_overcount :
    (addSimilarityEdges gCx backendCx "a").1 = 1 ∧
    (addSimilarityEdges gCx backendCx "a").2 = gCx ∧
    totalEdges (addSimilarityEdges gCx backendCx "a").2 = totalEdges gCx := by
  refine ⟨?_, ?_, ?_⟩ <;> with_unfolding_all rfl

/-- Witness for `addSimilarityEdges_count` on concrete stores. -/
theorem addSimilarityEdges_count_witness :
    addSimilarityEdges gFull backendCx "missing" = (0, gFull) ∧
    totalEdges (addSimilarityEdges gFull backendW "e1").2 =
      totalEdges gFull + (addSimilarityEdges gFull backendW "e1").1 :=
  ⟨addSimilarityEdges_count.1 gFull backendCx "missing" (by decide),
   addSimilarityEdges_count.2.2 gFull backendW "e1" entE1 [1] rfl rfl
     (by decide) (by decide)⟩

theorem computePageRank_dirty (g : MemoryGraph) :
    (computePageRank g).2.dirty = false := by
  unfold computePageRank
  split <;> rfl

theorem applyOp_dirty (g : MemoryGraph) (op : GraphOp) :
    (applyOp g op).dirty = (g.dirty || opCommits g op) := by
  cases op with
  | addN e =>
    show (addNode g e).dirty = _
    unfold addNode opCommits
    by_cases h : g.nodes.length ≥ g.config.maxNodes ∧ ¬ mapHas g.nodes e.id
    · rw [if_pos h]
      simp [h]
    · rw [if_neg h]
      push_neg at h
      rcases Nat.lt_or_ge g.nodes.length g.config.maxNodes with hlt | hge
      · simp [hlt]
      · simp [h hge]
  | addE u v t w =>
    show (addEdge g u v t w).dirty = _
    unfold addEdge opCommits
    by_cases h : mapHas g.nodes u ∧ mapHas g.nodes v
    · rw [if_neg (not_not_intro h)]
      simp [h.1, h.2]
    · rw [if_pos h]
      rw [Classical.not_and_iff_or_not_not] at h
      rcases h with h | h <;> simp [h]
  | remN id =>
    show (removeNode g id).dirty = _
    unfold removeNode opCommits
    by_cases h : mapHas g.nodes id = true
    · rw [if_neg (not_not_intro h)]
      simp [h]
    · rw [if_pos (by simpa using h)]
      simp [(by simpa using h : mapHas g.nodes id = false)]

/-- C6 (amended): the dirty flag is cleared by every `computePageRank` call
and is true afterwards exactly when some subsequent mutation call passed its
guard — including calls that left the node and edge structure unchanged
(e.g. re-adding an existing edge with a lower weight). -/
theorem dirty_flag_tracking :
    (∀ g : MemoryGraph, (computePageRank g).2.dirty = false) ∧
    (∀ (g : MemoryGraph) (ops : List GraphOp),
      (ops.foldl applyOp g).dirty = (g.dirty || anyCommits g ops)) ∧
    (∀ (g : MemoryGraph) (ops : List GraphOp),
      (ops.foldl applyOp (computePageRank g).2).dirty =
        anyCommits (computePageRank g).2 ops) := by
  have hfold : ∀ (ops : List GraphOp) (g : MemoryGraph),
      (ops.foldl applyOp g).dirty = (g.dirty || anyCommits g ops) := by
    intro ops
    induction ops with
    | nil =>
      intro g
      simp [anyCommits]
    | cons op rest ih =>
      intro g
      simp only [List.foldl_cons, anyCommits]
      rw [ih (applyOp g op), applyOp_dirty]
      rw [Bool.or_assoc]
  refine ⟨computePageRank_dirty, fun g ops => hfold ops g, ?_⟩
  intro g ops
  rw [hfold ops (computePageRank g).2, computePageRank_dirty]
  rfl

/-- Counterexample to C6 as stated: re-adding the existing edge `a → b` with
the same type and weight leaves the node and edge structure (and even the
reverse index) unchanged, yet flips dirty from false to true. -/
theorem dirty_without_structural_change :
    gABClean.dirty = false ∧
    (addEdge gABClean "a" "b" EdgeType.reference 1).nodes = gABClean.nodes ∧
    (addEdge gABClean "a" "b" EdgeType.reference 1).edges = gABClean.edges ∧
    (addEdge gABClean "a" "b" EdgeType.reference 1).reverseEdges =
      gABClean.reverseEdges ∧
    (addEdge gABClean "a" "b" EdgeType.reference 1).dirty = true := by
  refine ⟨?_, ?_, ?_, ?_, ?_⟩ <;> with_unfolding_all rfl

/-- C7: with damping 0.85 on `{A, B, C}` with edges `A→B, A→C` only, the
dangling nodes `B` and `C` receive equal ranks strictly greater than `A`'s. -/
theorem dangling_ranks_order :
    rankOf (computePageRank gC7).1 "B" = rankOf (computePageRank gC7).1 "C" ∧
    rankOf (computePageRank gC7).1 "A" < rankOf (computePageRank gC7).1 "B" ∧
    danglingNodes gC7 = ["B", "C"] :=
  ⟨by with_unfolding_all rfl,
   of_decide_eq_true (by with_unfolding_all rfl),
   by with_unfolding_all rfl⟩

theorem rankedLE_trans (a b c : RankedResult) (h1 : rankedLE a b)
    (h2 : rankedLE b c) : rankedLE a c := by
  unfold rankedLE at *
  simp only [decide_eq_true_eq] at *
  exact le_trans h2 h1

theorem rankedLE_total (a b : RankedResult) : rankedLE a b || rankedLE b a := by
  unfold rankedLE
  rcases le_total a.combinedScore b.combinedScore with h | h <;> simp [h]

theorem nq_if_eq_max (n : Nat) :
    (if n = 0 then (1 : ℚ) else (n : ℚ)) = ((max n 1 : Nat) : ℚ) := by
  cases n with
  | zero => simp
  | succ m =>
    rw [if_neg (Nat.succ_ne_zero m)]
    congr 1
    omega

/-- C8: `rankWithGraph` first recomputes PageRank when the graph is dirty;
it returns one record per input with
`combinedScore = α·score + (1−α)·(pagerank·N)` where `N = max(|nodes|, 1)`
and the pagerank of an id absent from the rank map is 0; the output is the
input list sorted by combined score descending, stably. -/
theorem rankWithGraph_spec (g : MemoryGraph) (results : List SearchResult)
    (alpha : ℚ) :
    (rankWithGraph g results alpha).2 =
      (if g.dirty then (computePageRank g).2 else g) ∧
    (rankWithGraph g results alpha).1.Perm
      (results.map (mkRanked (rankWithGraph g results alpha).2 alpha
        ((max (rankWithGraph g results alpha).2.nodes.length 1 : Nat) : ℚ))) ∧
    (∀ r : SearchResult, ∀ nq : ℚ,
      (mkRanked (rankWithGraph g results alpha).2 alpha nq r).combinedScore =
        alpha * r.score + (1 - alpha) *
          (rankOf (rankWithGraph g results alpha).2.pageRanks r.entry.id * nq)) ∧
    (∀ id, mapGet (rankWithGraph g results alpha).2.pageRanks id = none →
      rankOf (rankWithGraph g results alpha).2.pageRanks id = 0) ∧
    (rankWithGraph g results alpha).1.Pairwise
      (fun a b => b.combinedScore ≤ a.combinedScore) ∧
    (∀ a b : RankedResult,
      [a, b].Sublist (results.map (mkRanked (rankWithGraph g results alpha).2 alpha
        ((max (rankWithGraph g results alpha).2.nodes.length 1 : Nat) : ℚ))) →
      b.combinedScore ≤ a.combinedScore →
      [a, b].Sublist (rankWithGraph g results alpha).1) := by
  have hsnd : (rankWithGraph g results alpha).2 =
      (if g.dirty then (computePageRank g).2 else g) := rfl
  have hnq : ((if (rankWithGraph g results alpha).2.nodes.length = 0 then (1 : ℚ)
      else ((rankWithGraph g results alpha).2.nodes.length : ℚ))) =
      ((max (rankWithGraph g results alpha).2.nodes.length 1 : Nat) : ℚ) :=
    nq_if_eq_max _
  have hfst : (rankWithGraph g results alpha).1 =
      (results.map (mkRanked (rankWithGraph g results alpha).2 alpha
        ((max (rankWithGraph g results alpha).2.nodes.length 1 : Nat) : ℚ))).mergeSort
        rankedLE := by
    show ((results.map (mkRanked _ alpha _)).mergeSort rankedLE) = _
    rw [← hsnd, hnq]
  refine ⟨hsnd, ?_, ?_, ?_, ?_, ?_⟩
  · rw [hfst]
    exact List.mergeSort_perm _ rankedLE
  · intro r nq
    rfl
  · intro id h
    unfold rankOf
    rw [h]
    rfl
  · rw [hfst]
    have h := List.sorted_mergeSort
      (fun a b c => rankedLE_trans a b c)
      (fun a b => rankedLE_total a b)
      (results.map (mkRanked (rankWithGraph g results alpha).2 alpha
        ((max (rankWithGraph g results alpha).2.nodes.length 1 : Nat) : ℚ)))
    refine h.imp ?_
    intro a b hab
    unfold rankedLE at hab
    simpa using hab
  · intro a b hsub hab
    rw [hfst]
    exact List.pair_sublist_mergeSort
      (fun a b c => rankedLE_trans a b c)
      (fun a b => rankedLE_total a b)
      (by unfold rankedLE; simpa using hab) hsub

/-- Witness for `rankWithGraph_spec` on a concrete graph and result list. -/
theorem rankWithGraph_spec_witness :
    rankOf (rankWithGraph gAB rsW 1).2.pageRanks "zz" = 0 ∧
    [mkRanked (rankWithGraph gAB rsW 1).2 1
        ((max (rankWithGraph gAB rsW 1).2.nodes.length 1 : Nat) : ℚ)
        ⟨entW "b", 9/10⟩,
      mkRanked (rankWithGraph gAB rsW 1).2 1
        ((max (rankWithGraph gAB rsW 1).2.nodes.length 1 : Nat) : ℚ)
        ⟨entW "a", 8/10⟩].Sublist (rankWithGraph gAB rsW 1).1 :=
  ⟨(rankWithGraph_spec gAB rsW 1).2.2.2.1 "zz" (by with_unfolding_all rfl),
   (rankWithGraph_spec gAB rsW 1).2.2.2.2.2
     (mkRanked (rankWithGraph gAB rsW 1).2 1
       ((max (rankWithGraph gAB rsW 1).2.nodes.length 1 : Nat) : ℚ)
       ⟨entW "b", 9/10⟩)
     (mkRanked (rankWithGraph gAB rsW 1).2 1
       ((max (rankWithGraph gAB rsW 1).2.nodes.length 1 : Nat) : ℚ)
       ⟨entW "a", 8/10⟩)
     (List.Sublist.refl _)
     (of_decide_eq_true (by with_unfolding_all rfl))⟩

theorem outList_of_not_mem {g : MemoryGraph} {u : String}
    (h : u ∉ mapKeys g.edges) : outList g u = [] := by
  unfold outList
  rw [(mapGet_eq_none_iff _ _).mpr h]
  rfl

theorem revList_of_not_mem {g : MemoryGraph} {u : String}
    (h : u ∉ mapKeys g.reverseEdges) : revList g u = [] := by
  unfold revList
  rw [(mapGet_eq_none_iff _ _).mpr h]
  rfl

/-- The reverse index of a well-formed graph captures exactly the forward
edges. -/
theorem WF.rev_iff {g : MemoryGraph} (h : WF g) (u v : String) :
    v ∈ revList g u ↔ ∃ e ∈ outList g v, e.targetId = u := by
  constructor
  · intro hv
    by_cases hu : u ∈ mapKeys g.reverseEdges
    · exact h.2.2.2.2.2.2.2.2.1 u hu v hv
    · rw [revList_of_not_mem hu] at hv
      simp at hv
  · rintro ⟨e, he, rfl⟩
    by_cases hvk : v ∈ mapKeys g.edges
    · exact h.2.2.2.2.2.2.2.2.2.1 v hvk e he
    · rw [outList_of_not_mem hvk] at he
      simp at he

theorem not_mem_setDelete_self (s : List String) (x : String) :
    x ∉ setDelete s x := by
  unfold setDelete
  intro h
  rw [List.mem_filter] at h
  simp at h

theorem mem_setDelete_of_ne {y x : String} (s : List String) (h : y ≠ x) :
    y ∈ setDelete s x ↔ y ∈ s := by
  unfold setDelete
  rw [List.mem_filter]
  simp [h]

theorem removeRevEntries_cons (rev : AList (List String)) (e : GraphEdge)
    (es : List GraphEdge) (id : String) :
    removeRevEntries rev (e :: es) id =
      removeRevEntries
        (match mapGet rev e.targetId with
         | some s => mapSet rev e.targetId (setDelete s id)
         | none => rev) es id := rfl

theorem mapGet_removeRevEntries (id : String) (outgoing : List GraphEdge) :
    ∀ (rev : AList (List String)),
    (outgoing.map (fun e => e.targetId)).Nodup → ∀ k,
    mapGet (removeRevEntries rev outgoing id) k =
      if k ∈ outgoing.map (fun e => e.targetId) then
        (mapGet rev k).map (fun s => setDelete s id)
      else mapGet rev k := by
  induction outgoing with
  | nil =>
    intro rev _ k
    simp [removeRevEntries]
  | cons e es ih =>
    intro rev hnd k
    rw [List.map_cons, List.nodup_cons] at hnd
    rw [removeRevEntries_cons]
    rw [ih _ hnd.2 k]
    by_cases hk : k = e.targetId
    · subst hk
      rw [if_neg hnd.1, if_pos (by simp)]
      cases hget : mapGet rev e.targetId with
      | none => simp [hget]
      | some s => simp [hget, mapGet_mapSet_self]
    · have hget2 : mapGet (match mapGet rev e.targetId with
          | some s => mapSet rev e.targetId (setDelete s id)
          | none => rev) k = mapGet rev k := by
        cases hget : mapGet rev e.targetId with
        | none => rfl
        | some s =>
          simp only
          exact mapGet_mapSet_ne rev e.targetId k (setDelete s id) hk
      by_cases hkes : k ∈ es.map (fun e => e.targetId)
      · rw [if_pos hkes, if_pos (by simp [hkes]), hget2]
      · rw [if_neg hkes, if_neg (by simp [hk, hkes]), hget2]

theorem removeIncomingEdges_cons (es : AList (List GraphEdge)) (s : String)
    (rest : List String) (id : String) :
    removeIncomingEdges es (s :: rest) id =
      removeIncomingEdges
        (match mapGet es s with
         | some l => mapSet es s (l.filter (fun e => e.targetId ≠ id))
         | none => es) rest id := rfl

theorem mapGet_removeIncomingEdges (id : String) (incoming : List String) :
    ∀ (es : AList (List GraphEdge)), incoming.Nodup → ∀ k,
    mapGet (removeIncomingEdges es incoming id) k =
      if k ∈ incoming then
        (mapGet es k).map (fun l => l.filter (fun e => e.targetId ≠ id))
      else mapGet es k := by
  induction incoming with
  | nil =>
    intro es _ k
    simp [removeIncomingEdges]
  | cons s rest ih =>
    intro es hnd k
    rw [List.nodup_cons] at hnd
    rw [removeIncomingEdges_cons]
    rw [ih _ hnd.2 k]
    by_cases hk : k = s
    · subst hk
      rw [if_neg hnd.1, if_pos (by simp)]
      cases hget : mapGet es k with
      | none => simp [hget]
      | some l => simp [hget, mapGet_mapSet_self]
    · have hget2 : mapGet (match mapGet es s with
          | some l => mapSet es s (l.filter (fun e => e.targetId ≠ id))
          | none => es) k = mapGet es k := by
        cases hget : mapGet es s with
        | none => rfl
        | some l =>
          simp only
          exact mapGet_mapSet_ne es s k _ hk
      by_cases hkr : k ∈ rest
      · rw [if_pos hkr, if_pos (by simp [hkr]), hget2]
      · rw [if_neg hkr, if_neg (by simp [hk, hkr]), hget2]

/-- C5: on a well-formed graph, `removeNode x` of a present id erases the
node, its out-edge list, its reverse-index entry, every edge targeting `x`,
every occurrence of `x` in other reverse-index sets, and its PageRank and
community entries; `removeNode` of a missing id changes nothing. -/
theorem removeNode_clean :
    (∀ (g : MemoryGraph) (x : String), WF g → mapHas g.nodes x = true →
      (∀ u, ∀ e ∈ outList (removeNode g x) u, e.targetId ≠ x) ∧
      mapGet (removeNode g x).nodes x = none ∧
      mapGet (removeNode g x).edges x = none ∧
      mapGet (removeNode g x).reverseEdges x = none ∧
      (∀ u, x ∉ revList (removeNode g x) u) ∧
      mapGet (removeNode g x).pageRanks x = none ∧
      mapGet (removeNode g x).communities x = none) ∧
    (∀ (g : MemoryGraph) (x : String), mapHas g.nodes x = false →
      removeNode g x = g) := by
  constructor
  case right =>
    intro g x h
    unfold removeNode
    rw [if_pos (by simp [h])]
  intro g x hwf hx
  have hrn : removeNode g x =
      { g with
        nodes := mapDelete g.nodes x
        edges := removeIncomingEdges (mapDelete g.edges x)
          ((mapGet (removeRevEntries g.reverseEdges (outList g x) x) x).getD []) x
        reverseEdges := mapDelete (removeRevEntries g.reverseEdges (outList g x) x) x
        pageRanks := mapDelete g.pageRanks x
        communities := mapDelete g.communities x
        dirty := true } := by
    unfold removeNode
    rw [if_neg (not_not_intro hx)]
  have hTgNodup : ((outList g x).map (fun e => e.targetId)).Nodup := by
    by_cases hxe : x ∈ mapKeys g.edges
    · exact hwf.2.2.2.2.2.2.1 x hxe
    · rw [outList_of_not_mem hxe]
      simp
  have hR1 : ∀ k, mapGet (removeRevEntries g.reverseEdges (outList g x) x) k =
      if k ∈ (outList g x).map (fun e => e.targetId) then
        (mapGet g.reverseEdges k).map (fun s => setDelete s x)
      else mapGet g.reverseEdges k :=
    mapGet_removeRevEntries x (outList g x) g.reverseEdges hTgNodup
  have hinc_eq : (mapGet (removeRevEntries g.reverseEdges (outList g x) x) x).getD [] =
      if x ∈ (outList g x).map (fun e => e.targetId) then
        setDelete (revList g x) x
      else revList g x := by
    rw [hR1 x]
    by_cases hxt : x ∈ (outList g x).map (fun e => e.targetId)
    · rw [if_pos hxt, if_pos hxt]
      cases hget : mapGet g.reverseEdges x with
      | none =>
        unfold revList
        rw [hget]
        rfl
      | some s =>
        unfold revList
        rw [hget]
        rfl
    · rw [if_neg hxt, if_neg hxt]
      rfl
  have hx_not_inc :
      x ∉ (mapGet (removeRevEntries g.reverseEdges (outList g x) x) x).getD [] := by
    rw [hinc_eq]
    by_cases hxt : x ∈ (outList g x).map (fun e => e.targetId)
    · rw [if_pos hxt]
      exact not_mem_setDelete_self _ x
    · rw [if_neg hxt]
      intro hmem
      obtain ⟨e, he, hev⟩ := (hwf.rev_iff x x).mp hmem
      exact hxt (List.mem_map.mpr ⟨e, he, hev⟩)
  have hIncNodup :
      ((mapGet (removeRevEntries g.reverseEdges (outList g x) x) x).getD []).Nodup := by
    rw [hinc_eq]
    have hrevnd : (revList g x).Nodup := by
      by_cases hxr : x ∈ mapKeys g.reverseEdges
      · exact hwf.2.2.2.2.2.2.2.1 x hxr
      · rw [revList_of_not_mem hxr]
        exact List.nodup_nil
    by_cases hxt : x ∈ (outList g x).map (fun e => e.targetId)
    · rw [if_pos hxt]
      exact hrevnd.filter _
    · rw [if_neg hxt]
      exact hrevnd
  have hinc_iff : ∀ u, u ≠ x →
      (u ∈ (mapGet (removeRevEntries g.reverseEdges (outList g x) x) x).getD [] ↔
        u ∈ revList g x) := by
    intro u hu
    rw [hinc_eq]
    by_cases hxt : x ∈ (outList g x).map (fun e => e.targetId)
    · rw [if_pos hxt]
      exact mem_setDelete_of_ne _ hu
    · rw [if_neg hxt]
  have hR2 : ∀ k, mapGet (removeIncomingEdges (mapDelete g.edges x)
      ((mapGet (removeRevEntries g.reverseEdges (outList g x) x) x).getD []) x) k =
      if k ∈ (mapGet (removeRevEntries g.reverseEdges (outList g x) x) x).getD [] then
        (mapGet (mapDelete g.edges x) k).map
          (fun l => l.filter (fun e => e.targetId ≠ x))
      else mapGet (mapDelete g.edges x) k :=
    mapGet_removeIncomingEdges x _ (mapDelete g.edges x) hIncNodup
  have hE : (removeNode g x).edges = removeIncomingEdges (mapDelete g.edges x)
      ((mapGet (removeRevEntries g.reverseEdges (outList g x) x) x).getD []) x := by
    rw [hrn]
  have hRv : (removeNode g x).reverseEdges =
      mapDelete (removeRevEntries g.reverseEdges (outList g x) x) x := by
    rw [hrn]
  refine ⟨?_, ?_, ?_, ?_, ?_, ?_, ?_⟩
  · -- no surviving edge targets x
    intro u e he hex
    have he2 : e ∈ (mapGet (removeNode g x).edges u).getD [] := he
    rw [hE, hR2 u] at he2
    by_cases hu_inc :
        u ∈ (mapGet (removeRevEntries g.reverseEdges (outList g x) x) x).getD []
    · rw [if_pos hu_inc] at he2
      cases hget : mapGet (mapDelete g.edges x) u with
      | none =>
        rw [hget] at he2
        simp at he2
      | some l =>
        rw [hget] at he2
        have he3 : e ∈ l.filter (fun e2 => e2.targetId ≠ x) := he2
        rw [List.mem_filter] at he3
        have he4 : e.targetId ≠ x := by simpa using he3.2
        exact he4 hex
    · rw [if_neg hu_inc] at he2
      by_cases hux : u = x
      · subst hux
        rw [mapGet_mapDelete_self] at he2
        simp at he2
      · rw [mapGet_mapDelete_ne g.edges x u hux] at he2
        have hmem : u ∈ revList g x :=
          (hwf.rev_iff x u).mpr ⟨e, he2, hex⟩
        exact hu_inc ((hinc_iff u hux).mpr hmem)
  · rw [hrn]
    exact mapGet_mapDelete_self g.nodes x
  · rw [hE, hR2 x, if_neg hx_not_inc]
    exact mapGet_mapDelete_self g.edges x
  · rw [hRv]
    exact mapGet_mapDelete_self _ x
  · intro u hmem
    have hm2 : x ∈ (mapGet (removeNode g x).reverseEdges u).getD [] := hmem
    rw [hRv] at hm2
    by_cases hux : u = x
    · subst hux
      rw [mapGet_mapDelete_self] at hm2
      simp at hm2
    · rw [mapGet_mapDelete_ne _ x u hux, hR1 u] at hm2
      by_cases hut : u ∈ (outList g x).map (fun e => e.targetId)
      · rw [if_pos hut] at hm2
        cases hget : mapGet g.reverseEdges u with
        | none =>
          rw [hget] at hm2
          simp at hm2
        | some s =>
          rw [hget] at hm2
          exact not_mem_setDelete_self s x hm2
      · rw [if_neg hut] at hm2
        obtain ⟨e, he, hev⟩ := (hwf.rev_iff u x).mp hm2
        exact hut (List.mem_map.mpr ⟨e, he, hev⟩)
  · rw [hrn]
    exact mapGet_mapDelete_self g.pageRanks x
  · rw [hrn]
    exact mapGet_mapDelete_self g.communities x

/-- Witness for `removeNode_clean`: removing `b` from the two-node graph
`a → b`, plus removing a missing id. -/
theorem removeNode_clean_witness :
    ("b" ∉ (outList (removeNode gAB "b") "a").map (fun e => e.targetId)) ∧
    mapGet (removeNode gAB "b").nodes "b" = none ∧
    mapGet (removeNode gAB "b").edges "b" = none ∧
    mapGet (removeNode gAB "b").reverseEdges "b" = none ∧
    ("b" ∉ revList (removeNode gAB "b") "a") ∧
    mapGet (removeNode gAB "b").pageRanks "b" = none ∧
    mapGet (removeNode gAB "b").communities "b" = none ∧
    removeNode gAB "zz" = gAB := by
  have h := removeNode_clean.1 gAB "b" (by decide) (by decide)
  refine ⟨?_, h.2.1, h.2.2.1, h.2.2.2.1, h.2.2.2.2.1 "a", h.2.2.2.2.2.1,
    h.2.2.2.2.2.2, removeNode_clean.2 gAB "zz" (by decide)⟩
  intro hmem
  obtain ⟨e, he, hev⟩ := List.mem_map.mp hmem
  exact h.1 "a" e he hev

theorem foldl_add_map {α : Type} (f : α → ℚ) (l : List α) :
    ∀ s : ℚ, l.foldl (fun a x => a + f x) s = s + (l.map f).sum := by
  induction l with
  | nil => intro s; simp
  | cons x rest ih =>
    intro s
    simp only [List.foldl_cons, List.map_cons, List.sum_cons]
    rw [ih (s + f x)]
    ring

theorem danglingSum_eq (g : MemoryGraph) (ranks : AList ℚ) :
    danglingSum g ranks = ((danglingNodes g).map (rankOf ranks)).sum := by
  unfold danglingSum
  rw [foldl_add_map (rankOf ranks) (danglingNodes g) 0]
  ring

theorem inSum_eq (g : MemoryGraph) (ranks : AList ℚ) (u : String) :
    inSum g ranks u =
      ((revList g u).map (fun v => rankOf ranks v / outDegreeOr1 g v)).sum := by
  unfold inSum
  rw [foldl_add_map _ (revList g u) 0]
  ring

theorem foldl_pair_fst {α β : Type} (f : String → α) (mx : β → String → β)
    (l : List String) : ∀ (a : AList α) (b : β),
    (l.foldl (fun acc u => (mapSet acc.1 u (f u), mx acc.2 u)) (a, b)).1 =
      l.foldl (fun m u => mapSet m u (f u)) a := by
  induction l with
  | nil => intro a b; rfl
  | cons u rest ih =>
    intro a b
    simp only [List.foldl_cons]
    exact ih (mapSet a u (f u)) (mx b u)

theorem mapSet_append_of_not_mem {α : Type} (m : AList α) (k : String) (v : α)
    (h : k ∉ mapKeys m) : mapSet m k v = m ++ [(k, v)] := by
  induction m with
  | nil => rfl
  | cons p rest ih =>
    rw [mem_mapKeys_cons] at h
    push_neg at h
    rw [mapSet_cons, if_neg h.1, ih h.2]
    rfl

theorem foldl_mapSet_of_fresh {α : Type} (f : String → α) (l : List String) :
    ∀ (a : AList α), (∀ k ∈ l, k ∉ mapKeys a) → l.Nodup →
    l.foldl (fun m u => mapSet m u (f u)) a = a ++ l.map (fun u => (u, f u)) := by
  induction l with
  | nil => intro a _ _; simp
  | cons u rest ih =>
    intro a hfresh hnd
    rw [List.nodup_cons] at hnd
    simp only [List.foldl_cons]
    rw [mapSet_append_of_not_mem a u (f u) (hfresh u (by simp))]
    rw [ih (a ++ [(u, f u)]) ?_ hnd.2]
    · simp
    · intro k hk
      have h1 : k ∉ mapKeys a := hfresh k (by simp [hk])
      have h2 : k ≠ u := fun he => hnd.1 (he ▸ hk)
      simp only [mapKeys, List.map_append, List.mem_append] at h1 ⊢
      rintro (h | h)
      · exact h1 h
      · simp at h
        exact h2 h

theorem prStep_fst (g : MemoryGraph) (d nq : ℚ) (ranks : AList ℚ)
    (hnd : (mapKeys g.nodes).Nodup) :
    (prStep g d nq ranks).1 = (mapKeys g.nodes).map
      (fun u => (u, newRank g d nq (danglingSum g ranks) ranks u)) := by
  unfold prStep
  simp only
  rw [foldl_pair_fst (newRank g d nq (danglingSum g ranks) ranks)
    (fun b u => max b |newRank g d nq (danglingSum g ranks) ranks u - rankOf ranks u|)
    (mapKeys g.nodes) [] 0]
  rw [foldl_mapSet_of_fresh _ (mapKeys g.nodes) [] (by simp [mapKeys]) hnd]
  rfl

theorem mapGet_map_pair (f : String → ℚ) :
    ∀ (l : List String) (k : String), k ∈ l →
    mapGet (l.map (fun u => (u, f u))) k = some (f k) := by
  intro l
  induction l with
  | nil => intro k hk; simp at hk
  | cons u rest ih =>
    intro k hk
    rw [List.map_cons, mapGet_cons]
    by_cases hu : u = k
    · rw [if_pos hu, hu]
    · rw [if_neg hu]
      refine ih k ?_
      rcases List.mem_cons.mp hk with h | h
      · exact absurd h.symm hu
      · exact h

theorem revList_nodup {g : MemoryGraph} (hwf : WF g) (u : String) :
    (revList g u).Nodup := by
  by_cases hu : u ∈ mapKeys g.reverseEdges
  · exact hwf.2.2.2.2.2.2.2.1 u hu
  · rw [revList_of_not_mem hu]
    exact List.nodup_nil

theorem outTargets_nodup {g : MemoryGraph} (hwf : WF g) (v : String) :
    ((outList g v).map (fun e => e.targetId)).Nodup := by
  by_cases hv : v ∈ mapKeys g.edges
  · exact hwf.2.2.2.2.2.2.1 v hv
  · rw [outList_of_not_mem hv]
    simp

theorem outTarget_mem_nodes {g : MemoryGraph} (hwf : WF g) {v : String}
    {e : GraphEdge} (he : e ∈ outList g v) : e.targetId ∈ mapKeys g.nodes := by
  by_cases hv : v ∈ mapKeys g.edges
  · exact hwf.2.2.2.2.2.1 v hv e he
  · rw [outList_of_not_mem hv] at he
    simp at he

theorem revList_mem_nodes {g : MemoryGraph} (hwf : WF g) {u v : String}
    (hv : v ∈ revList g u) : v ∈ mapKeys g.nodes := by
  obtain ⟨e, he, _⟩ := (hwf.rev_iff u v).mp hv
  have hvk : v ∈ mapKeys g.edges := by
    by_contra hvk
    rw [outList_of_not_mem hvk] at he
    simp at he
  exact hwf.2.2.2.1 v hvk

/-- The double-sum swap at the heart of PageRank mass conservation: the total
inbound contribution plus the dangling mass equals the total rank mass. -/
theorem inSum_total {g : MemoryGraph} (hwf : WF g) (ranks : AList ℚ) :
    ((mapKeys g.nodes).map (inSum g ranks)).sum + danglingSum g ranks =
      rankSum g ranks := by
  classical
  have hnd := hwf.1
  set f : String → ℚ := fun v => rankOf ranks v / outDegreeOr1 g v with hf
  have hstep1 : ∀ u, inSum g ranks u = ∑ v ∈ (revList g u).toFinset, f v := by
    intro u
    rw [inSum_eq, ← List.sum_toFinset _ (revList_nodup hwf u)]
  have hrevsub : ∀ u v, v ∈ revList g u → v ∈ (mapKeys g.nodes).toFinset := by
    intro u v hv
    rw [List.mem_toFinset]
    exact revList_mem_nodes hwf hv
  have hstep2 : ∀ u, (∑ v ∈ (revList g u).toFinset, f v) =
      ∑ v ∈ (mapKeys g.nodes).toFinset, if v ∈ revList g u then f v else 0 := by
    intro u
    rw [← Finset.sum_filter]
    congr 1
    ext v
    simp only [Finset.mem_filter, List.mem_toFinset]
    constructor
    · intro hv
      exact ⟨revList_mem_nodes hwf hv, hv⟩
    · intro hv
      exact hv.2
  have hswap : ((mapKeys g.nodes).map (inSum g ranks)).sum =
      ∑ v ∈ (mapKeys g.nodes).toFinset,
        ∑ u ∈ (mapKeys g.nodes).toFinset, (if v ∈ revList g u then f v else 0) := by
    rw [← List.sum_toFinset _ hnd]
    rw [Finset.sum_congr rfl (fun u _ => (hstep1 u).trans (hstep2 u))]
    exact Finset.sum_comm
  have hinner : ∀ v ∈ (mapKeys g.nodes).toFinset,
      (∑ u ∈ (mapKeys g.nodes).toFinset, (if v ∈ revList g u then f v else 0)) =
        ((outList g v).length : ℚ) * f v := by
    intro v hv
    rw [← Finset.sum_filter]
    have hfilt : ((mapKeys g.nodes).toFinset.filter (fun u => v ∈ revList g u)) =
        ((outList g v).map (fun e => e.targetId)).toFinset := by
      ext u
      simp only [Finset.mem_filter, List.mem_toFinset, List.mem_map]
      constructor
      · rintro ⟨_, hrev⟩
        obtain ⟨e, he, hev⟩ := (hwf.rev_iff u v).mp hrev
        exact ⟨e, he, hev⟩
      · rintro ⟨e, he, rfl⟩
        exact ⟨outTarget_mem_nodes hwf he, (hwf.rev_iff e.targetId v).mpr ⟨e, he, rfl⟩⟩
    rw [hfilt, Finset.sum_const,
      List.toFinset_card_of_nodup (outTargets_nodup hwf v)]
    rw [List.length_map]
    rw [nsmul_eq_mul]
  have hmain : ((mapKeys g.nodes).map (inSum g ranks)).sum =
      ∑ v ∈ (mapKeys g.nodes).toFinset, ((outList g v).length : ℚ) * f v := by
    rw [hswap]
    exact Finset.sum_congr rfl hinner
  have hdang : danglingSum g ranks =
      ∑ v ∈ (mapKeys g.nodes).toFinset.filter (fun v => outList g v = []),
        rankOf ranks v := by
    rw [danglingSum_eq]
    unfold danglingNodes
    rw [← List.sum_toFinset _ (hnd.filter _)]
    congr 1
    ext v
    simp [List.mem_toFinset, List.mem_filter, Finset.mem_filter]
  rw [hmain, hdang, rankSum]
  rw [← List.sum_toFinset _ hnd]
  rw [← Finset.sum_filter_add_sum_filter_not (mapKeys g.nodes).toFinset
    (fun v => outList g v = []) (fun v => ((outList g v).length : ℚ) * f v)]
  rw [← Finset.sum_filter_add_sum_filter_not (mapKeys g.nodes).toFinset
    (fun v => outList g v = []) (rankOf ranks)]
  have hzero : ∀ v ∈ (mapKeys g.nodes).toFinset.filter (fun v => outList g v = []),
      ((outList g v).length : ℚ) * f v = 0 := by
    intro v hv
    rw [Finset.mem_filter] at hv
    rw [hv.2]
    simp
  have hfull : ∀ v ∈ (mapKeys g.nodes).toFinset.filter
      (fun v => ¬ outList g v = []),
      ((outList g v).length : ℚ) * f v = rankOf ranks v := by
    intro v hv
    rw [Finset.mem_filter] at hv
    have hlen : (outList g v).length ≠ 0 := by
      intro h0
      exact hv.2 (List.length_eq_zero.mp h0)
    have hdeg : outDegreeOr1 g v = ((outList g v).length : ℚ) := by
      unfold outDegreeOr1
      rw [if_neg hlen]
    rw [hf]
    simp only
    rw [hdeg, mul_comm, div_mul_cancel₀]
    exact Nat.cast_ne_zero.mpr hlen
  rw [Finset.sum_congr rfl hzero, Finset.sum_congr rfl hfull]
  simp only [Finset.sum_const_zero, zero_add]
  exact add_comm _ _

theorem list_sum_map_add {α : Type} (l : List α) (f g : α → ℚ) :
    (l.map (fun x => f x + g x)).sum = (l.map f).sum + (l.map g).sum := by
  induction l with
  | nil => simp
  | cons x rest ih =>
    simp only [List.map_cons, List.sum_cons, ih]
    ring

theorem list_sum_map_const {α : Type} (l : List α) (c : ℚ) :
    (l.map (fun _ => c)).sum = l.length * c := by
  induction l with
  | nil => simp
  | cons x rest ih =>
    simp only [List.map_cons, List.sum_cons, ih, List.length_cons]
    push_cast
    ring

theorem list_sum_map_mul_left {α : Type} (l : List α) (c : ℚ) (f : α → ℚ) :
    (l.map (fun x => c * f x)).sum = c * (l.map f).sum := by
  induction l with
  | nil => simp
  | cons x rest ih =>
    simp only [List.map_cons, List.sum_cons, ih]
    ring

theorem sum_newRank {g : MemoryGraph} (hwf : WF g) (d : ℚ) (ranks : AList ℚ)
    (hN : g.nodes.length ≠ 0) (hrs : rankSum g ranks = 1) :
    ((mapKeys g.nodes).map
      (newRank g d (g.nodes.length : ℚ) (danglingSum g ranks) ranks)).sum = 1 := by
  have hnqz : ((g.nodes.length : ℚ)) ≠ 0 := Nat.cast_ne_zero.mpr hN
  have hkeyslen : (mapKeys g.nodes).length = g.nodes.length := by
    simp [mapKeys]
  have hsplit : newRank g d (g.nodes.length : ℚ) (danglingSum g ranks) ranks =
      fun u => ((1 - d) / (g.nodes.length : ℚ) +
        d * (danglingSum g ranks / (g.nodes.length : ℚ))) +
        d * inSum g ranks u := by
    funext u
    unfold newRank
    ring
  rw [hsplit, list_sum_map_add, list_sum_map_const, list_sum_map_mul_left,
    hkeyslen]
  have hins : ((mapKeys g.nodes).map (inSum g ranks)).sum =
      1 - danglingSum g ranks := by
    have h := inSum_total hwf ranks
    rw [hrs] at h
    linarith
  rw [hins]
  field_simp
  ring

theorem prStep_sum {g : MemoryGraph} (hwf : WF g) (d : ℚ) (ranks : AList ℚ)
    (hN : g.nodes.length ≠ 0) (hrs : rankSum g ranks = 1) :
    sumValues (prStep g d (g.nodes.length : ℚ) ranks).1 = 1 ∧
    rankSum g (prStep g d (g.nodes.length : ℚ) ranks).1 = 1 := by
  rw [prStep_fst g d (g.nodes.length : ℚ) ranks hwf.1]
  constructor
  · unfold sumValues
    rw [List.map_map]
    exact sum_newRank hwf d ranks hN hrs
  · unfold rankSum
    rw [List.map_congr_left (fun k hk => by
      unfold rankOf
      rw [mapGet_map_pair _ (mapKeys g.nodes) k hk])]
    exact sum_newRank hwf d ranks hN hrs

theorem foldl_mapSet_const_get_not_mem {α : Type} (v : α) (l : List String) :
    ∀ (m : AList α) (k : String), k ∉ l →
    mapGet (l.foldl (fun a u => mapSet a u v) m) k = mapGet m k := by
  induction l with
  | nil => intro m k _; rfl
  | cons u rest ih =>
    intro m k hk
    simp only [List.foldl_cons]
    rw [ih (mapSet m u v) k (fun h => hk (by simp [h]))]
    exact mapGet_mapSet_ne m u k v (fun h => hk (by simp [h]))

theorem foldl_mapSet_const_get_mem {α : Type} (v : α) (l : List String) :
    ∀ (m : AList α) (k : String), k ∈ l →
    mapGet (l.foldl (fun a u => mapSet a u v) m) k = some v := by
  induction l with
  | nil => intro m k hk; simp at hk
  | cons u rest ih =>
    intro m k hk
    simp only [List.foldl_cons]
    by_cases hkr : k ∈ rest
    · exact ih (mapSet m u v) k hkr
    · have hku : k = u := by
        rcases List.mem_cons.mp hk with h | h
        · exact h
        · exact absurd h hkr
      rw [foldl_mapSet_const_get_not_mem v rest (mapSet m u v) k hkr, hku,
        mapGet_mapSet_self]

theorem mem_mapKeys_mapSet {α : Type} (m : AList α) (k x : String) (v : α) :
    x ∈ mapKeys (mapSet m k v) ↔ x ∈ mapKeys m ∨ x = k := by
  by_cases hk : k ∈ mapKeys m
  · rw [mapKeys_mapSet_mem m k v hk]
    constructor
    · exact Or.inl
    · rintro (h | rfl)
      · exact h
      · exact hk
  · rw [mapKeys_mapSet_not_mem m k v hk]
    simp [List.mem_append]

theorem mem_mapKeys_foldl_mapSet {α : Type} (v : α) (l : List String) :
    ∀ (m : AList α) (x : String),
    x ∈ mapKeys (l.foldl (fun a u => mapSet a u v) m) ↔
      x ∈ mapKeys m ∨ x ∈ l := by
  induction l with
  | nil => intro m x; simp
  | cons u rest ih =>
    intro m x
    simp only [List.foldl_cons]
    rw [ih (mapSet m u v) x, mem_mapKeys_mapSet]
    constructor
    · rintro ((h | rfl) | h)
      · exact Or.inl h
      · exact Or.inr (by simp)
      · exact Or.inr (by simp [h])
    · rintro (h | h)
      · exact Or.inl (Or.inl h)
      · rcases List.mem_cons.mp h with rfl | h
        · exact Or.inl (Or.inr rfl)
        · exact Or.inr h

theorem mapKeys_nodup_foldl_mapSet {α : Type} (v : α) (l : List String) :
    ∀ (m : AList α), (mapKeys m).Nodup →
    (mapKeys (l.foldl (fun a u => mapSet a u v) m)).Nodup := by
  induction l with
  | nil => intro m h; exact h
  | cons u rest ih =>
    intro m h
    simp only [List.foldl_cons]
    exact ih (mapSet m u v) (mapKeys_nodup_mapSet m u v h)

theorem mapGet_of_mem_nodup {α : Type} {m : AList α}
    (hnd : (mapKeys m).Nodup) {k : String} {v : α} (h : (k, v) ∈ m) :
    mapGet m k = some v := by
  induction m with
  | nil => simp at h
  | cons p rest ih =>
    rw [mapKeys_cons, List.nodup_cons] at hnd
    rcases List.mem_cons.mp h with rfl | h2
    · rw [mapGet_cons, if_pos rfl]
    · have hk : k ∈ mapKeys rest := List.mem_map.mpr ⟨(k, v), h2, rfl⟩
      have hne : p.1 ≠ k := fun he => hnd.1 (he ▸ hk)
      rw [mapGet_cons, if_neg hne]
      exact ih hnd.2 h2

theorem sum_values_const {m : AList ℚ} {c : ℚ} (h : ∀ p ∈ m, p.2 = c) :
    sumValues m = m.length * c := by
  unfold sumValues
  induction m with
  | nil => simp
  | cons p rest ih =>
    simp only [List.map_cons, List.sum_cons, List.length_cons]
    rw [h p (by simp), ih (fun q hq => h q (by simp [hq]))]
    push_cast
    ring

theorem prInit_spec {g : MemoryGraph} (hwf : WF g) (hN : g.nodes.length ≠ 0) :
    rankSum g (prInit g (g.nodes.length : ℚ)) = 1 ∧
    sumValues (prInit g (g.nodes.length : ℚ)) = 1 := by
  have hnqz : ((g.nodes.length : ℚ)) ≠ 0 := Nat.cast_ne_zero.mpr hN
  have hkeyslen : (mapKeys g.nodes).length = g.nodes.length := by simp [mapKeys]
  have hget : ∀ k ∈ mapKeys g.nodes,
      mapGet (prInit g (g.nodes.length : ℚ)) k = some (1 / (g.nodes.length : ℚ)) :=
    fun k hk => foldl_mapSet_const_get_mem _ (mapKeys g.nodes) g.pageRanks k hk
  constructor
  · unfold rankSum
    rw [List.map_congr_left (fun k hk => by
      unfold rankOf
      rw [hget k hk])]
    rw [list_sum_map_const, hkeyslen]
    field_simp
  · have hndInit : (mapKeys (prInit g (g.nodes.length : ℚ))).Nodup :=
      mapKeys_nodup_foldl_mapSet _ (mapKeys g.nodes) g.pageRanks hwf.2.2.2.2.2.2.2.2.2.2.2
    have hmemInit : ∀ x, x ∈ mapKeys (prInit g (g.nodes.length : ℚ)) ↔
        x ∈ mapKeys g.nodes := by
      intro x
      have h := mem_mapKeys_foldl_mapSet (1 / (g.nodes.length : ℚ))
        (mapKeys g.nodes) g.pageRanks x
      constructor
      · intro hx
        rcases h.mp hx with h2 | h2
        · exact hwf.2.2.2.2.2.2.2.2.2.2.1 x h2
        · exact h2
      · intro hx
        exact h.mpr (Or.inr hx)
    have hval : ∀ p ∈ prInit g (g.nodes.length : ℚ),
        p.2 = 1 / (g.nodes.length : ℚ) := by
      rintro ⟨k, v⟩ hp
      have hk : k ∈ mapKeys (prInit g (g.nodes.length : ℚ)) :=
        List.mem_map.mpr ⟨(k, v), hp, rfl⟩
      have h1 := mapGet_of_mem_nodup hndInit hp
      have h2 := hget k ((hmemInit k).mp hk)
      rw [h1] at h2
      exact Option.some.inj h2
    rw [sum_values_const hval]
    have hlen : (prInit g (g.nodes.length : ℚ)).length = g.nodes.length := by
      have hperm : List.Perm (mapKeys (prInit g (g.nodes.length : ℚ)))
          (mapKeys g.nodes) :=
        (List.perm_ext_iff_of_nodup hndInit hwf.1).mpr hmemInit
      have := hperm.length_eq
      simpa [mapKeys] using this
    rw [hlen]
    field_simp

theorem prIterate_sum {g : MemoryGraph} (hwf : WF g) (d conv : ℚ)
    (hN : g.nodes.length ≠ 0) :
    ∀ (fuel : Nat) (ranks : AList ℚ) (iters : Nat),
    rankSum g ranks = 1 → sumValues ranks = 1 →
    sumValues (prIterate g d (g.nodes.length : ℚ) conv fuel ranks iters).1 = 1 := by
  intro fuel
  induction fuel with
  | zero =>
    intro ranks iters _ hsv
    exact hsv
  | succ rem ih =>
    intro ranks iters hrs hsv
    unfold prIterate
    have hstep := prStep_sum hwf d ranks hN hrs
    split
    · exact hstep.1
    · exact ih _ _ hstep.2 hstep.1

/-- C2: on every well-formed graph with at least one node, the rank map
returned by `computePageRank` sums to exactly 1 under exact rational
arithmetic — dangling nodes and self-loops included. -/
theorem pagerank_sums_to_one (g : MemoryGraph) (hwf : WF g)
    (hne : g.nodes.length ≠ 0) : sumValues (computePageRank g).1 = 1 := by
  unfold computePageRank
  rw [if_neg hne]
  have hinit := prInit_spec hwf hne
  exact prIterate_sum hwf g.config.pageRankDamping g.config.pageRankConvergence
    hne g.config.pageRankIterations _ 0 hinit.1 hinit.2

/-- Witness for `pagerank_sums_to_one` on the concrete graph `a → b`. -/
theorem pagerank_sums_to_one_witness :
    sumValues (computePageRank gAB).1 = 1 :=
  pagerank_sums_to_one gAB (by decide) (by decide)

theorem targetsOfSet_mono (g : MemoryGraph) {S T : Set String} (h : S ⊆ T) :
    targetsOfSet g S ⊆ targetsOfSet g T := by
  rintro v ⟨u, hu, e, he, rfl⟩
  exact ⟨u, h hu, e, he, rfl⟩

theorem subset_expand (g : MemoryGraph) (S : Set String) :
    ∀ n, S ⊆ expand g S n := by
  intro n
  induction n with
  | zero => exact subset_rfl
  | succ m ih => exact ih.trans Set.subset_union_left

theorem expand_mono (g : MemoryGraph) {S T : Set String} (h : S ⊆ T) :
    ∀ n, expand g S n ⊆ expand g T n := by
  intro n
  induction n with
  | zero => exact h
  | succ m ih =>
    exact Set.union_subset_union ih (targetsOfSet_mono g ih)

theorem expand_succ_comm (g : MemoryGraph) (S : Set String) :
    ∀ n, expand g (S ∪ targetsOfSet g S) n = expand g S (n + 1) := by
  intro n
  induction n with
  | zero => rfl
  | succ m ih =>
    show expand g (S ∪ targetsOfSet g S) m ∪
        targetsOfSet g (expand g (S ∪ targetsOfSet g S) m) = _
    rw [ih]
    rfl

theorem expand_closed_mono (g : MemoryGraph) {S S2 C : Set String}
    (h1 : S ⊆ S2 ∪ C) (h2 : targetsOfSet g C ⊆ C ∪ S2) :
    ∀ n, expand g S n ⊆ expand g S2 n ∪ C := by
  intro n
  induction n with
  | zero => exact h1
  | succ m ih =>
    intro v hv
    rcases hv with hv | hv
    · rcases ih hv with h | h
      · exact Or.inl (Set.subset_union_left h)
      · exact Or.inr h
    · obtain ⟨u, hu, e, he, rfl⟩ := hv
      rcases ih hu with h | h
      · exact Or.inl (Or.inr ⟨u, h, e, he, rfl⟩)
      · rcases h2 ⟨u, h, e, he, rfl⟩ with h3 | h3
        · exact Or.inr h3
        · exact Or.inl (Set.subset_union_left (subset_expand g S2 m h3))

theorem expand_stable (g : MemoryGraph) {S C : Set String}
    (hc : targetsOfSet g C ⊆ C) (hs : S ⊆ C) : ∀ n, expand g S n ⊆ C := by
  intro n
  induction n with
  | zero => exact hs
  | succ m ih =>
    intro v hv
    rcases hv with hv | hv
    · exact ih hv
    · obtain ⟨u, hu, e, he, rfl⟩ := hv
      exact hc ⟨u, ih hu, e, he, rfl⟩

theorem neighborScan_mem (id v : String) : ∀ (es : List GraphEdge)
    (acc : List String × List String),
    ((v ∈ (neighborScan id acc es).1 ↔
        v ∈ acc.1 ∨ (v ≠ id ∧ v ∈ es.map (fun e => e.targetId))) ∧
     (v ∈ (neighborScan id acc es).2 ↔
        v ∈ acc.2 ∨ (v ≠ id ∧ v ∉ acc.1 ∧ v ∈ es.map (fun e => e.targetId)))) := by
  intro es
  induction es with
  | nil =>
    intro acc
    constructor <;> simp [neighborScan]
  | cons e rest ih =>
    intro acc
    have hstep : neighborScan id acc (e :: rest) =
        neighborScan id
          (if e.targetId ∉ acc.1 ∧ e.targetId ≠ id then
            (acc.1 ++ [e.targetId], acc.2 ++ [e.targetId])
          else acc) rest := rfl
    rw [hstep]
    by_cases hcond : e.targetId ∉ acc.1 ∧ e.targetId ≠ id
    · rw [if_pos hcond]
      have h := ih (acc.1 ++ [e.targetId], acc.2 ++ [e.targetId])
      constructor
      · rw [h.1]
        simp only [List.mem_append, List.mem_singleton, List.map_cons,
          List.mem_cons, List.mem_nil_iff, or_false]
        constructor
        · rintro ((hv | rfl) | ⟨hne, hrest⟩)
          · exact Or.inl hv
          · exact Or.inr ⟨hcond.2, Or.inl rfl⟩
          · exact Or.inr ⟨hne, Or.inr hrest⟩
        · rintro (hv | ⟨hne, rfl | hrest⟩)
          · exact Or.inl (Or.inl hv)
          · exact Or.inl (Or.inr rfl)
          · exact Or.inr ⟨hne, hrest⟩
      · rw [h.2]
        simp only [List.mem_append, List.mem_singleton, List.map_cons,
          List.mem_cons, List.mem_nil_iff, or_false]
        constructor
        · rintro ((hv | rfl) | ⟨hne, hnin, hrest⟩)
          · exact Or.inl hv
          · exact Or.inr ⟨hcond.2, hcond.1, Or.inl rfl⟩
          · exact Or.inr ⟨hne, fun h2 => hnin (Or.inl h2), Or.inr hrest⟩
        · rintro (hv | ⟨hne, hnin, rfl | hrest⟩)
          · exact Or.inl (Or.inl hv)
          · exact Or.inl (Or.inr rfl)
          · by_cases hvt : v = e.targetId
            · exact Or.inl (Or.inr hvt)
            · exact Or.inr ⟨hne, fun h2 => by
                rcases h2 with h2 | h2
                · exact hnin h2
                · exact hvt h2, hrest⟩
    · rw [if_neg hcond]
      have h := ih acc
      push_neg at hcond
      constructor
      · rw [h.1]
        simp only [List.map_cons, List.mem_cons]
        constructor
        · rintro (hv | ⟨hne, hrest⟩)
          · exact Or.inl hv
          · exact Or.inr ⟨hne, Or.inr hrest⟩
        · rintro (hv | ⟨hne, rfl | hrest⟩)
          · exact Or.inl hv
          · rcases Classical.em (e.targetId ∈ acc.1) with h2 | h2
            · exact Or.inl h2
            · exact absurd (hcond h2) hne
          · exact Or.inr ⟨hne, hrest⟩
      · rw [h.2]
        simp only [List.map_cons, List.mem_cons]
        constructor
        · rintro (hv | ⟨hne, hnin, hrest⟩)
          · exact Or.inl hv
          · exact Or.inr ⟨hne, hnin, Or.inr hrest⟩
        · rintro (hv | ⟨hne, hnin, rfl | hrest⟩)
          · exact Or.inl hv
          · exact absurd (hcond (fun h2 => hnin h2)) hne
          · exact Or.inr ⟨hne, hnin, hrest⟩

theorem neighborFold_mem (g : MemoryGraph) (id v : String) :
    ∀ (frontier : List String) (acc : List String × List String),
    ((v ∈ (frontier.foldl (fun a u => neighborScan id a (outList g u)) acc).1 ↔
        v ∈ acc.1 ∨ (v ≠ id ∧ ∃ u ∈ frontier,
          v ∈ (outList g u).map (fun e => e.targetId))) ∧
     (v ∈ (frontier.foldl (fun a u => neighborScan id a (outList g u)) acc).2 ↔
        v ∈ acc.2 ∨ (v ≠ id ∧ v ∉ acc.1 ∧ ∃ u ∈ frontier,
          v ∈ (outList g u).map (fun e => e.targetId)))) := by
  intro frontier
  induction frontier with
  | nil =>
    intro acc
    constructor <;> simp
  | cons u fr ih =>
    intro acc
    have hcons : (∃ x ∈ u :: fr, v ∈ (outList g x).map (fun e => e.targetId)) ↔
        (v ∈ (outList g u).map (fun e => e.targetId) ∨
          ∃ x ∈ fr, v ∈ (outList g x).map (fun e => e.targetId)) := by
      constructor
      · rintro ⟨x, hx, hP⟩
        rcases List.mem_cons.mp hx with rfl | h
        · exact Or.inl hP
        · exact Or.inr ⟨x, h, hP⟩
      · rintro (h | ⟨x, hx, hP⟩)
        · exact ⟨u, by simp, h⟩
        · exact ⟨x, by simp [hx], hP⟩
    have hscan := neighborScan_mem id v (outList g u) acc
    have hih := ih (neighborScan id acc (outList g u))
    simp only [List.foldl_cons]
    constructor
    · rw [hih.1, hscan.1, hcons]
      constructor
      · rintro ((hv | ⟨hne, htu⟩) | ⟨hne, hfr⟩)
        · exact Or.inl hv
        · exact Or.inr ⟨hne, Or.inl htu⟩
        · exact Or.inr ⟨hne, Or.inr hfr⟩
      · rintro (hv | ⟨hne, htu | hfr⟩)
        · exact Or.inl (Or.inl hv)
        · exact Or.inl (Or.inr ⟨hne, htu⟩)
        · exact Or.inr ⟨hne, hfr⟩
    · rw [hih.2, hscan.2, hscan.1, hcons]
      constructor
      · rintro ((hv | ⟨hne, hnin, htu⟩) | ⟨hne, hn1, hfr⟩)
        · exact Or.inl hv
        · exact Or.inr ⟨hne, hnin, Or.inl htu⟩
        · exact Or.inr ⟨hne, fun h => hn1 (Or.inl h), Or.inr hfr⟩
      · rintro (hv | ⟨hne, hnin, htu | hfr⟩)
        · exact Or.inl (Or.inl hv)
        · exact Or.inl (Or.inr ⟨hne, hnin, htu⟩)
        · by_cases htu2 : v ∈ (outList g u).map (fun e => e.targetId)
          · exact Or.inl (Or.inr ⟨hne, hnin, htu2⟩)
          · refine Or.inr ⟨hne, ?_, hfr⟩
            rintro (h | ⟨_, h⟩)
            · exact hnin h
            · exact htu2 h

theorem neighborLoop_mem (g : MemoryGraph) (id : String) :
    ∀ (d : Nat) (visited frontier : List String),
    (∀ x ∈ frontier, x ∈ visited ∨ x = id) →
    (∀ x, (x ∈ visited ∨ x = id) → x ∉ frontier →
      ∀ e ∈ outList g x, e.targetId ∈ visited ∨ e.targetId = id) →
    id ∉ visited →
    ∀ v, v ∈ neighborLoop g id d visited frontier ↔
      v ∈ visited ∨ (v ≠ id ∧ v ∈ expand g {x | x ∈ frontier} d) := by
  intro d
  induction d with
  | zero =>
    intro visited frontier hA hB hC v
    show v ∈ visited ↔ _
    constructor
    · exact Or.inl
    · rintro (hv | ⟨hne, hv⟩)
      · exact hv
      · rcases hA v hv with h | h
        · exact h
        · exact absurd h hne
  | succ d ih =>
    intro visited frontier hA hB hC v
    have hV : ∀ w, w ∈ (frontier.foldl
        (fun a u => neighborScan id a (outList g u)) (visited, [])).1 ↔
        w ∈ visited ∨ (w ≠ id ∧ ∃ u ∈ frontier,
          w ∈ (outList g u).map (fun e => e.targetId)) :=
      fun w => (neighborFold_mem g id w frontier (visited, [])).1
    have hF : ∀ w, w ∈ (frontier.foldl
        (fun a u => neighborScan id a (outList g u)) (visited, [])).2 ↔
        (w ≠ id ∧ w ∉ visited ∧ ∃ u ∈ frontier,
          w ∈ (outList g u).map (fun e => e.targetId)) := by
      intro w
      have h := (neighborFold_mem g id w frontier (visited, [])).2
      simpa using h
    have hNT : ∀ w, (∃ u ∈ frontier,
        w ∈ (outList g u).map (fun e => e.targetId)) ↔
        w ∈ targetsOfSet g {x | x ∈ frontier} := by
      intro w
      constructor
      · rintro ⟨u, hu, hw⟩
        obtain ⟨e, he, rfl⟩ := List.mem_map.mp hw
        exact ⟨u, hu, e, he, rfl⟩
      · rintro ⟨u, hu, e, he, rfl⟩
        exact ⟨u, hu, List.mem_map.mpr ⟨e, he, rfl⟩⟩
    unfold neighborLoop
    by_cases hemp : (frontier.foldl
        (fun a u => neighborScan id a (outList g u)) (visited, [])).2 = []
    · rw [if_pos hemp]
      have hNid : ∀ w, (∃ u ∈ frontier,
          w ∈ (outList g u).map (fun e => e.targetId)) →
          w = id ∨ w ∈ visited := by
        intro w hw
        by_cases hwid : w = id
        · exact Or.inl hwid
        · by_cases hwv : w ∈ visited
          · exact Or.inr hwv
          · exact absurd ((hF w).mpr ⟨hwid, hwv, hw⟩) (by rw [hemp]; simp)
      have hTC : targetsOfSet g {x | x ∈ visited ∨ x = id} ⊆
          {x | x ∈ visited ∨ x = id} := by
        rintro w ⟨u, hu, e, he, rfl⟩
        by_cases huf : u ∈ frontier
        · rcases hNid e.targetId ⟨u, huf, List.mem_map.mpr ⟨e, he, rfl⟩⟩ with h | h
          · exact Or.inr h
          · exact Or.inl h
        · exact hB u hu huf e he
      have hexp : expand g {x | x ∈ frontier} (d + 1) ⊆
          {x | x ∈ visited ∨ x = id} :=
        expand_stable g hTC (fun x hx => hA x hx) (d + 1)
      constructor
      · intro hv
        rcases (hV v).mp hv with h | ⟨hne, hN⟩
        · exact Or.inl h
        · rcases hNid v hN with h | h
          · exact absurd h hne
          · exact Or.inl h
      · rintro (hv | ⟨hne, hv⟩)
        · exact (hV v).mpr (Or.inl hv)
        · rcases hexp hv with h | h
          · exact (hV v).mpr (Or.inl h)
          · exact absurd h hne
    · rw [if_neg hemp]
      have hA2 : ∀ x ∈ (frontier.foldl
          (fun a u => neighborScan id a (outList g u)) (visited, [])).2,
          x ∈ (frontier.foldl
            (fun a u => neighborScan id a (outList g u)) (visited, [])).1 ∨
          x = id := by
        intro x hx
        obtain ⟨hne, hnv, hN⟩ := (hF x).mp hx
        exact Or.inl ((hV x).mpr (Or.inr ⟨hne, hN⟩))
      have hC2 : id ∉ (frontier.foldl
          (fun a u => neighborScan id a (outList g u)) (visited, [])).1 := by
        intro h
        rcases (hV id).mp h with h2 | ⟨h2, _⟩
        · exact hC h2
        · exact h2 rfl
      have hB2 : ∀ x, (x ∈ (frontier.foldl
          (fun a u => neighborScan id a (outList g u)) (visited, [])).1 ∨ x = id) →
          x ∉ (frontier.foldl
            (fun a u => neighborScan id a (outList g u)) (visited, [])).2 →
          ∀ e ∈ outList g x,
            e.targetId ∈ (frontier.foldl
              (fun a u => neighborScan id a (outList g u)) (visited, [])).1 ∨
            e.targetId = id := by
        intro x hx hxF e he
        by_cases htid : e.targetId = id
        · exact Or.inr htid
        · refine Or.inl ?_
          have hfromN : x ∈ frontier → e.targetId ∈ (frontier.foldl
              (fun a u => neighborScan id a (outList g u)) (visited, [])).1 :=
            fun hxf => (hV e.targetId).mpr
              (Or.inr ⟨htid, ⟨x, hxf, List.mem_map.mpr ⟨e, he, rfl⟩⟩⟩)
          have hfromB : x ∉ frontier → (x ∈ visited ∨ x = id) →
              e.targetId ∈ (frontier.foldl
                (fun a u => neighborScan id a (outList g u)) (visited, [])).1 := by
            intro hxf hxv
            rcases hB x hxv hxf e he with h | h
            · exact (hV e.targetId).mpr (Or.inl h)
            · exact absurd h htid
          rcases hx with hx | rfl
          · rcases (hV x).mp hx with hxv | ⟨hxne, hxN⟩
            · by_cases hxf : x ∈ frontier
              · exact hfromN hxf
              · exact hfromB hxf (Or.inl hxv)
            · by_cases hxv : x ∈ visited
              · by_cases hxf : x ∈ frontier
                · exact hfromN hxf
                · exact hfromB hxf (Or.inl hxv)
              · exact absurd ((hF x).mpr ⟨hxne, hxv, hxN⟩) hxF
          · by_cases hxf : x ∈ frontier
            · exact hfromN hxf
            · exact hfromB hxf (Or.inr rfl)
      have hrec := ih (frontier.foldl
          (fun a u => neighborScan id a (outList g u)) (visited, [])).1
        (frontier.foldl
          (fun a u => neighborScan id a (outList g u)) (visited, [])).2
        hA2 hB2 hC2
      rw [hrec v, ← expand_succ_comm g {x | x ∈ frontier} d]
      constructor
      · rintro (hv | ⟨hne, hv⟩)
        · rcases (hV v).mp hv with h | ⟨hne, hN⟩
          · exact Or.inl h
          · exact Or.inr ⟨hne,
              subset_expand g _ d (Or.inr ((hNT v).mp hN))⟩
        · refine Or.inr ⟨hne, ?_⟩
          refine expand_mono g ?_ d hv
          intro x hx
          obtain ⟨hxne, hxnv, hxN⟩ := (hF x).mp hx
          exact Or.inr ((hNT x).mp hxN)
      · rintro (hv | ⟨hne, hv⟩)
        · exact Or.inl ((hV v).mpr (Or.inl hv))
        · have h1 : {x | x ∈ frontier} ∪ targetsOfSet g {x | x ∈ frontier} ⊆
              {x | x ∈ (frontier.foldl
                (fun a u => neighborScan id a (outList g u)) (visited, [])).2} ∪
              {x | x ∈ visited ∨ x = id} := by
            rintro w (hw | hw)
            · exact Or.inr (hA w hw)
            · have hNw := (hNT w).mpr hw
              by_cases hwid : w = id
              · exact Or.inr (Or.inr hwid)
              · by_cases hwv : w ∈ visited
                · exact Or.inr (Or.inl hwv)
                · exact Or.inl ((hF w).mpr ⟨hwid, hwv, hNw⟩)
          have h2 : targetsOfSet g {x | x ∈ visited ∨ x = id} ⊆
              {x | x ∈ visited ∨ x = id} ∪
              {x | x ∈ (frontier.foldl
                (fun a u => neighborScan id a (outList g u)) (visited, [])).2} := by
            rintro w ⟨u, hu, e, he, rfl⟩
            by_cases huf : u ∈ frontier
            · by_cases hwid : e.targetId = id
              · exact Or.inl (Or.inr hwid)
              · by_cases hwv : e.targetId ∈ visited
                · exact Or.inl (Or.inl hwv)
                · exact Or.inr ((hF e.targetId).mpr
                    ⟨hwid, hwv, ⟨u, huf, List.mem_map.mpr ⟨e, he, rfl⟩⟩⟩)
            · exact Or.inl (hB u hu huf e he)
          rcases expand_closed_mono g h1 h2 d hv with h3 | h3
          · exact Or.inr ⟨hne, h3⟩
          · rcases h3 with h3 | h3
            · exact Or.inl ((hV v).mpr (Or.inl h3))
            · exact absurd h3 hne

/-- C9: `getNeighbors id depth` returns exactly the ids reachable from `id`
within `depth` forward hops, excluding `id` itself; a missing id yields the
empty set; on the chain `A→B→C→D` the depths 1, 2 and 10 give `{B}`,
`{B, C}` and `{B, C, D}`. -/
theorem getNeighbors_bfs :
    (∀ (g : MemoryGraph) (id : String) (depth : Nat) (v : String),
      v ∈ getNeighbors g id depth ↔
        v ≠ id ∧ v ∈ expand g {id} depth) ∧
    (∀ (g : MemoryGraph) (id : String) (depth : Nat),
      mapGet g.edges id = none → getNeighbors g id depth = []) ∧
    getNeighbors gChain "A" 1 = ["B"] ∧
    getNeighbors gChain "A" 2 = ["B", "C"] ∧
    getNeighbors gChain "A" 10 = ["B", "C", "D"] := by
  refine ⟨?_, ?_, by decide, by decide, by decide⟩
  · intro g id depth v
    have hA : ∀ x ∈ ([id] : List String), x ∈ ([] : List String) ∨ x = id := by
      intro x hx
      simp at hx
      exact Or.inr hx
    have hB : ∀ x, (x ∈ ([] : List String) ∨ x = id) →
        x ∉ ([id] : List String) →
        ∀ e ∈ outList g x, e.targetId ∈ ([] : List String) ∨ e.targetId = id := by
      intro x hx hxf e he
      rcases hx with h | rfl
      · simp at h
      · exact absurd (by simp) hxf
    have h := neighborLoop_mem g id depth [] [id] hA hB (by simp) v
    have hseteq : {x | x ∈ ([id] : List String)} = ({id} : Set String) := by
      ext x
      simp
    rw [hseteq] at h
    simpa using h
  · intro g id depth h
    cases depth with
    | zero => rfl
    | succ d =>
      have hout : outList g id = [] := by
        unfold outList
        rw [h]
        rfl
      show neighborLoop g id (d + 1) [] [id] = []
      unfold neighborLoop
      have hfold : ([id] : List String).foldl
          (fun a u => neighborScan id a (outList g u)) ([], []) =
          (([] : List String), ([] : List String)) := by
        simp only [List.foldl_cons, List.foldl_nil, hout]
        rfl
      rw [hfold]
      simp

/-- Witness for `getNeighbors_bfs` at concrete inputs. -/
theorem getNeighbors_bfs_witness :
    ("C" ∈ getNeighbors gChain "A" 2 ↔
      ("C" ≠ "A" ∧ "C" ∈ expand gChain {"A"} 2)) ∧
    getNeighbors gChain "ZZ" 5 = [] :=
  ⟨getNeighbors_bfs.1 gChain "A" 2 "C",
   getNeighbors_bfs.2.1 gChain "ZZ" 5 (by decide)⟩

end MemGraph
